import Mathlib

/-!
Verification development for the objectivist-lattice knowledge-graph CLI.

The definitions below are a shallow embedding of the TypeScript sources:
`core/constants.ts` (levels, ranks), `core/graph.ts` (level validation,
cycle detection, reduction-link validation, promotion checks, incoming
links, full-graph validation, hollow chains), `core/node.ts` (frontmatter
normalization and parsing), and the command layer (`add`, `update`,
`delete`, `validate --fix-auto`, `dedup merge` / `dedup undo`).
JavaScript `Map`s keyed by slug are modelled as lists of nodes looked up
by first matching slug; file writes are modelled as pure store
transformations; thrown errors are modelled with `Except`.
-/

namespace Lattice

/-- The four knowledge levels of `constants.ts` (`LEVELS`).  The source
names them "percept", "axiom", "principle", "application"; the second is
spelled `axm` here. -/
inductive Level where
  | percept
  | axm
  | principle
  | application
deriving DecidableEq, Repr

/-- Numeric rank for each level (`LEVEL_RANK` in `constants.ts`).
Percepts and axioms share bedrock rank 0. -/
def LEVEL_RANK : Level → Nat
  | .percept => 0
  | .axm => 0
  | .principle => 1
  | .application => 2

/-- Validation status (`STATUSES` in `constants.ts`): `validated` stands
for the source string "Integrated/Validated" and `tentative` for
"Tentative/Hypothesis". -/
inductive Status where
  | validated
  | tentative
deriving DecidableEq, Repr

/-- One entry of a canonical node's `merged_from` audit list (`core/node.ts`).
The filesystem bookkeeping fields `original_path` / `trashed_path` carry no
graph content and are not modelled. -/
structure MergedFromEntry where
  id : String
  original_status : Status
deriving DecidableEq, Repr

/-- Parsed representation of a lattice node (`LatticeNode` in `core/node.ts`).
`created` is the epoch-millisecond timestamp of the `created` date;
`filePath` is filesystem bookkeeping and is not modelled. -/
structure LatticeNode where
  slug : String
  title : String
  level : Level
  reduces_to : List String
  status : Status
  tags : List String
  proposition : String
  created : Int
  deduplication_group : Option String := none
  merged_into : Option String := none
  merged_from : List MergedFromEntry := []
deriving DecidableEq, Repr

/-- The in-memory node set: the source keeps a `Map<string, LatticeNode>`
keyed by slug in insertion order; we keep the nodes as a list and look
them up by first matching slug. -/
abbrev Store := List LatticeNode

/-- Lookup by slug, the embedding of `nodes.get(slug)`. -/
def lookupNode (nodes : Store) (slug : String) : Option LatticeNode :=
  nodes.find? (fun n => n.slug == slug)

/-- Shared bedrock test used throughout the source:
`node.level === "percept" || node.level === "axiom"`. -/
def isBedrock (level : Level) : Bool :=
  level == .percept || level == .axm

/-- Error taxonomy: one constructor per distinct throw site relevant to the
modelled operations (`util/errors.ts` plus the inline `Error` throws of the
dedup commands). -/
inductive LErr where
  | targetNotFound (slug : String)
  | levelMismatch (source target : Level)
  | cycleDetected
  | unvalidatedParent (slug : String)
  | deleteBlocked (slug : String) (incomingCount : Nat)
  | rogueTag (tag : String)
  | missingReduction (level : Level)
  | bedrockLinks (level : Level)
  | invalidLevel (given : String)
  | invalidStatus (given : String)
  | noUpdates
  | nodeNotFound (slug : String)
  | duplicateSlug (slug : String)
  | mergeLevelConflict
  | alreadyMerged (slug : String)
  | noOldNodes
  | notAMerge (slug : String)
  | restoreFailed (slug : String)
deriving DecidableEq, Repr

/-- Embedding of `validateLevelOrder` (`core/graph.ts`): a node at rank R
may only reduce to nodes at rank strictly below R; otherwise a
`LevelMismatchError` is thrown. -/
def validateLevelOrder (sourceLevel targetLevel : Level) : Except LErr Unit :=
  if LEVEL_RANK sourceLevel ≤ LEVEL_RANK targetLevel then
    .error (.levelMismatch sourceLevel targetLevel)
  else
    .ok ()

/-- Embedding of `validateParentsAreValidated` (`core/graph.ts`): throws
`UnvalidatedParentError` on the first direct parent that exists and is
still Tentative/Hypothesis; missing parents are skipped. -/
def validateParentsAreValidated (reducesTo : List String) (nodes : Store) :
    Except LErr Unit :=
  match reducesTo with
  | [] => .ok ()
  | parentSlug :: rest =>
    match lookupNode nodes parentSlug with
    | none => validateParentsAreValidated rest nodes
    | some parent =>
      if parent.status = .tentative then
        .error (.unvalidatedParent parentSlug)
      else
        validateParentsAreValidated rest nodes

/-- Number of store nodes whose slug is not yet in the visited set; the
first component of the termination measure of the graph walks. -/
def notVisitedCount (nodes : Store) (visited : List String) : Nat :=
  (nodes.filter (fun n => !(visited.contains n.slug))).length

/-- Helper proof: filtering with a stronger predicate keeps at most as many
elements. -/
def filterLengthMono {α : Type} (l : List α) (p q : α → Bool)
    (himp : ∀ x, q x = true → p x = true) :
    (l.filter q).length ≤ (l.filter p).length := by
  induction l with
  | nil => simp
  | cons a t ih =>
    by_cases hq : q a = true
    · simp [List.filter, hq, himp a hq]; omega
    · simp only [List.filter, Bool.not_eq_true] at hq ⊢
      rw [hq]
      by_cases hp : p a = true
      · rw [hp]; simp; omega
      · simp only [Bool.not_eq_true] at hp
        rw [hp]; exact ih

/-- Helper proof: filtering with a strictly stronger predicate that loses a
witness gives strictly fewer elements. -/
def filterLengthLt {α : Type} (l : List α) (p q : α → Bool)
    (himp : ∀ x, q x = true → p x = true)
    (x : α) (hx : x ∈ l) (hpx : p x = true) (hqx : q x = false) :
    (l.filter q).length < (l.filter p).length := by
  induction l with
  | nil => simp at hx
  | cons a t ih =>
    rcases List.mem_cons.mp hx with rfl | hxt
    · have hqa : q x = false := hqx
      simp only [List.filter, hqa, hpx]
      have := filterLengthMono t p q himp
      simp; omega
    · by_cases hq : q a = true
      · simp [List.filter, hq, himp a hq]
        exact ih hxt
      · simp only [Bool.not_eq_true] at hq
        rw [List.filter, List.filter, hq]
        by_cases hp : p a = true
        · rw [hp]
          have := ih hxt
          simp; omega
        · simp only [Bool.not_eq_true] at hp
          rw [hp]; exact ih hxt

/-- Helper proof: when no store node carries the slug `current`, adding
`current` to the visited set does not change the not-visited count. -/
def notVisitedCountConsNone (nodes : Store) (current : String)
    (visited : List String) (h : lookupNode nodes current = none) :
    notVisitedCount nodes (current :: visited) = notVisitedCount nodes visited := by
  unfold notVisitedCount
  apply congrArg
  apply List.filter_congr
  intro n hn
  have hne : (n.slug == current) = false := by
    have h2 := List.find?_eq_none.mp h n hn
    simpa using h2
  have hc : ((current :: visited).contains n.slug) = (visited.contains n.slug) := by
    simp only [List.contains_cons, hne, Bool.false_or]
  rw [hc]

/-- Helper proof: visiting a slug that is present in the store strictly
decreases the not-visited count. -/
def notVisitedCountConsLt (nodes : Store) (current : String)
    (visited : List String) (n : LatticeNode)
    (h : lookupNode nodes current = some n)
    (hv : visited.contains current = false) :
    notVisitedCount nodes (current :: visited) < notVisitedCount nodes visited := by
  unfold notVisitedCount
  have hmem : n ∈ nodes := List.mem_of_find?_eq_some h
  have hslug : n.slug = current := by
    have := List.find?_some h
    simpa using this
  refine filterLengthLt nodes _ _ ?himp n hmem ?hpx ?hqx
  case himp =>
    intro m hm
    simp only [Bool.not_eq_true', List.contains_cons, Bool.or_eq_false_iff] at hm ⊢
    exact hm.2
  case hpx =>
    rw [hslug, Bool.not_eq_true', hv]
  case hqx =>
    rw [hslug]
    simp [List.contains_cons]

/-- Embedding of the `while` loop of `wouldCreateCycle` (`core/graph.ts`):
a depth-first walk following `reduces_to` edges, returning true as soon as
`fromSlug` is popped.  JavaScript's `stack.pop()` takes the last array
element, so the Lean list holds the stack top first and the `push` of each
parent in order becomes a left fold consing the parents in turn. -/
def cycleWalk (nodes : Store) (fromSlug : String) :
    List String → List String → Bool
  | [], _ => false
  | current :: rest, visited =>
    if current = fromSlug then true
    else if hv : visited.contains current then
      cycleWalk nodes fromSlug rest visited
    else
      match hl : lookupNode nodes current with
      | none => cycleWalk nodes fromSlug rest (current :: visited)
      | some n =>
        cycleWalk nodes fromSlug
          (n.reduces_to.foldl (fun st p => p :: st) rest) (current :: visited)
termination_by stack visited => (notVisitedCount nodes visited, stack.length)
decreasing_by
  · apply Prod.Lex.right
    simp
  · rw [notVisitedCountConsNone nodes current visited hl]
    apply Prod.Lex.right
    simp
  · apply Prod.Lex.left
    exact notVisitedCountConsLt nodes current visited n hl (by simpa using hv)

/-- Embedding of `wouldCreateCycle` (`core/graph.ts`): would adding the
edge `fromSlug → toSlug` close a loop?  Trivial self-cycle first, then the
depth-first search from `toSlug` looking for `fromSlug`. -/
def wouldCreateCycle (fromSlug toSlug : String) (nodes : Store) : Bool :=
  if fromSlug = toSlug then true
  else cycleWalk nodes fromSlug [toSlug] []

/-- Embedding of `validateReductionLinks` (`core/graph.ts`): for each target
in list order, check existence, then level ordering, then cycle freedom;
the first failing check raises and nothing is committed. -/
def validateReductionLinks (sourceSlug : String) (sourceLevel : Level)
    (reducesTo : List String) (nodes : Store) : Except LErr Unit :=
  match reducesTo with
  | [] => .ok ()
  | targetSlug :: rest =>
    match lookupNode nodes targetSlug with
    | none => .error (.targetNotFound targetSlug)
    | some target =>
      match validateLevelOrder sourceLevel target.level with
      | .error e => .error e
      | .ok () =>
        if wouldCreateCycle sourceSlug targetSlug nodes then
          .error .cycleDetected
        else
          validateReductionLinks sourceSlug sourceLevel rest nodes

/-- Specification-level reachability along `reduces_to` edges through nodes
present in the store, refusing to expand any slug in `avoid`.
`ReachVia nodes [] a b` says: `b` is reachable from `a` (in zero or more
hops) by repeatedly moving from a stored node to one of its
`reduces_to` parents. -/
inductive ReachVia (nodes : Store) (avoid : List String) : String → String → Prop where
  | refl (a : String) : ReachVia nodes avoid a a
  | step {a b c : String} {n : LatticeNode} :
      a ∉ avoid → lookupNode nodes a = some n → b ∈ n.reduces_to →
      ReachVia nodes avoid b c → ReachVia nodes avoid a c

/-- Strict (at least one hop) reachability: a cycle through the stored
graph is `ReachPlus nodes s s`. -/
def ReachPlus (nodes : Store) (a b : String) : Prop :=
  ∃ n, lookupNode nodes a = some n ∧ ∃ p ∈ n.reduces_to, ReachVia nodes [] p b

/-- Embedding of one push into the reverse index of `buildIncomingLinks`:
`incoming.get(target)` exists → push the slug onto its list, else
`incoming.set(target, [slug])`. -/
def pushIncoming (m : List (String × List String)) (target slug : String) :
    List (String × List String) :=
  match m with
  | [] => [(target, [slug])]
  | (k, v) :: rest =>
    if k == target then (k, v ++ [slug]) :: rest
    else (k, v) :: pushIncoming rest target slug

/-- Embedding of `buildIncomingLinks` (`core/graph.ts`): initialise every
stored slug with an empty list, then for every node and every
`reduces_to` target record the node's slug as an incoming link. -/
def buildIncomingLinks (nodes : Store) : List (String × List String) :=
  let init := nodes.map (fun n => (n.slug, ([] : List String)))
  nodes.foldl
    (fun m node => node.reduces_to.foldl (fun m target => pushIncoming m target node.slug) m)
    init

/-- The incoming-link list read off for one slug (`incoming.get(slug) ?? []`). -/
def incomingOf (nodes : Store) (slug : String) : List String :=
  match List.lookup slug (buildIncomingLinks nodes) with
  | some l => l
  | none => []

/-- Embedding of the `delete` command action (`commands/delete.ts`):
an Integrated/Validated node with at least one incoming link is protected
by `DeleteBlockedError`; otherwise the node's file is removed. -/
def deleteCmd (nodes : Store) (slug : String) : Except LErr Store :=
  match lookupNode nodes slug with
  | none => .error (.nodeNotFound slug)
  | some node =>
    if node.status = .validated then
      let incomingLinks := incomingOf nodes slug
      if incomingLinks.length > 0 then
        .error (.deleteBlocked slug incomingLinks.length)
      else
        .ok (nodes.filter (fun n => !(n.slug == slug)))
    else
      .ok (nodes.filter (fun n => !(n.slug == slug)))


/-- Executable (kernel-reducible) model of JavaScript's `String.trim`:
drop whitespace from both ends of the character list. -/
def trimString (s : String) : String :=
  String.mk
    (((s.data.dropWhile Char.isWhitespace).reverse.dropWhile Char.isWhitespace).reverse)

/-- Executable model of JavaScript's `toLowerCase`. -/
def lowerString (s : String) : String :=
  String.mk (s.data.map Char.toLower)

/-- Executable model of a `/…$/` suffix test. -/
def endsWithString (s sfx : String) : Bool :=
  sfx.data.isSuffixOf s.data

/-- Executable model of a `/^…/` prefix test. -/
def startsWithString (s pre : String) : Bool :=
  pre.data.isPrefixOf s.data

/-- Drop the last `n` characters. -/
def dropRightString (s : String) (n : Nat) : String :=
  String.mk (s.data.take (s.data.length - n))

/-- Drop the first `n` characters. -/
def dropString (s : String) (n : Nat) : String :=
  String.mk (s.data.drop n)

/-- Split a character list at every occurrence of `sep`
(JavaScript `split` semantics: the empty string yields one empty field). -/
def splitChars (sep : Char) : List Char → List (List Char)
  | [] => [[]]
  | c :: rest =>
    let r := splitChars sep rest
    if c = sep then [] :: r
    else
      match r with
      | [] => [[c]]
      | h :: t => (c :: h) :: t

/-- Executable model of JavaScript's `split(",")`. -/
def splitOnComma (s : String) : List String :=
  (splitChars ',' s.data).map String.mk

/-- Embedding of `validateTags` (`core/tags.ts`): throws `RogueTagError`
on the first tag whose lowercased trim is not in the master list. -/
def validateTags (tags masterTags : List String) : Except LErr Unit :=
  match tags with
  | [] => .ok ()
  | tag :: rest =>
    if masterTags.contains (trimString (lowerString tag)) then validateTags rest masterTags
    else .error (.rogueTag tag)

/-- The source's `r.replace(/\.md$/, "").trim()` applied to reduction-link
arguments of `add` and `update`. -/
def stripMdTrim (s : String) : String :=
  trimString (if endsWithString s ".md" then dropRightString s 3 else s)

/-- The source's comma-split used on `--add-tag` / `--remove-tag`:
`split(",").map(t => t.trim().toLowerCase()).filter(Boolean)`. -/
def splitTags (s : String) : List String :=
  ((splitOnComma s).map (fun t => lowerString (trimString t))).filter (fun t => t != "")

/-- Options of the `update` command (`commands/update.ts`): `none` / `[]`
mean the flag was not passed. -/
structure UpdateOpts where
  status : Option Status := none
  addTag : Option String := none
  removeTag : Option String := none
  addReducesTo : List String := []
  removeReducesTo : List String := []
deriving DecidableEq, Repr

/-- Embedding of the `update` command action (`commands/update.ts`).
Returns the new store together with the updated node.  The pairs carry the
`(current value, changed flag)` state of the source's mutable locals; the
status is never checked against the node's parents (the `graph.ts` helper
`validateParentsAreValidated` has no call site). -/
def updateCmd (nodes : Store) (masterTags : List String) (slug : String)
    (opts : UpdateOpts) : Except LErr (Store × LatticeNode) :=
  match lookupNode nodes slug with
  | none => .error (LErr.nodeNotFound slug)
  | some node =>
    let statusChanged := opts.status.isSome
    -- tag updates: add first, then remove
    let tagStateRes : Except LErr (List String × Bool) :=
      match opts.addTag with
      | none => .ok (node.tags, false)
      | some s =>
        let toAdd := splitTags s
        match validateTags toAdd masterTags with
        | .error e => .error e
        | .ok () =>
          .ok (toAdd.foldl
            (fun acc t => if acc.1.contains t then acc else (acc.1 ++ [t], true))
            (node.tags, false))
    match tagStateRes with
    | .error e => .error e
    | .ok tagState =>
      let tagState2 := match opts.removeTag with
        | none => tagState
        | some s =>
          let toRemove := splitTags s
          let filtered := tagState.1.filter (fun t => !(toRemove.contains t))
          if filtered.length != tagState.1.length then (filtered, true) else tagState
      -- reduces_to updates: add first, then remove
      let redStateRes : Except LErr (List String × Bool) :=
        if opts.addReducesTo.isEmpty then .ok (node.reduces_to, false)
        else
          let toAdd := opts.addReducesTo.map stripMdTrim
          match validateReductionLinks slug node.level toAdd nodes with
          | .error e => .error e
          | .ok () =>
            .ok (toAdd.foldl
              (fun acc r => if acc.1.contains r then acc else (acc.1 ++ [r], true))
              (node.reduces_to, false))
      match redStateRes with
      | .error e => .error e
      | .ok redState =>
        let redState2 :=
          if opts.removeReducesTo.isEmpty then redState
          else
            let toRemove := opts.removeReducesTo.map stripMdTrim
            let filtered := redState.1.filter (fun r => !(toRemove.contains r))
            if filtered.length != redState.1.length then (filtered, true) else redState
        -- a non-percept node that loses every reduces_to link is forced
        -- Tentative, unless a status was explicitly requested
        let newStatus :=
          if redState2.2 && !(node.level == Level.percept) && redState2.1.isEmpty
              && opts.status.isNone then
            some Status.tentative
          else opts.status
        if statusChanged || tagState2.2 || redState2.2 then
          let node' : LatticeNode :=
            { node with
              status := newStatus.getD node.status,
              tags := tagState2.1,
              reduces_to := redState2.1 }
          .ok (nodes.map (fun n => if n.slug == slug then node' else n), node')
        else
          .error LErr.noUpdates

/-- Options of the `add` command (`commands/add.ts`) after CLI parsing. -/
structure AddOpts where
  title : String
  level : Level
  reducesTo : List String
  tags : List String
  status : Status := .tentative
  proposition : String
deriving DecidableEq, Repr

/-- Embedding of the `add` command action (`commands/add.ts`).  `newSlug`
stands for the timestamp-derived slug produced by `generateFilename`, and
`created` for the creation timestamp written into the frontmatter. -/
def addCmd (nodes : Store) (masterTags : List String) (newSlug : String)
    (created : Int) (opts : AddOpts) : Except LErr Store :=
  match validateTags opts.tags masterTags with
  | .error e => .error e
  | .ok () =>
    let reducesTo := opts.reducesTo.map stripMdTrim
    if !(isBedrock opts.level) && reducesTo.isEmpty then
      .error (.missingReduction opts.level)
    else if isBedrock opts.level && !reducesTo.isEmpty then
      .error (.bedrockLinks opts.level)
    else
      let linkCheck : Except LErr Unit :=
        if reducesTo.isEmpty then .ok ()
        else validateReductionLinks newSlug opts.level reducesTo nodes
      match linkCheck with
      | .error e => .error e
      | .ok () =>
        if (nodes.map (fun n => n.slug)).contains newSlug then
          .error (.duplicateSlug newSlug)
        else
          .ok (nodes ++ [{
            slug := newSlug, title := opts.title,
            level := opts.level, reduces_to := reducesTo,
            status := opts.status, tags := opts.tags,
            proposition := opts.proposition, created := created }])

/-- Untyped YAML frontmatter value as far as `normalizeReducesTo` /
`normalizeTags` inspect it: absent (or null), a bare string, or an array
of strings. -/
inductive RawVal where
  | nullv
  | str (s : String)
  | arr (l : List String)
deriving DecidableEq, Repr

/-- Embedding of `cleanSlugRef` (`core/node.ts`): trim, strip one leading
wiki-link opener and one trailing closer, strip a trailing `.md`. -/
def cleanSlugRef (s : String) : String :=
  let s := trimString s
  let s := if startsWithString s "[[" then dropString s 2 else s
  let s := if endsWithString s "]]" then dropRightString s 2 else s
  if endsWithString s ".md" then dropRightString s 3 else s

/-- Embedding of `normalizeReducesTo` (`core/node.ts`): a bare string
becomes a one-element list when its cleaned form is nonempty; an array is
cleaned elementwise, dropping entries that clean to the empty string. -/
def normalizeReducesTo (raw : RawVal) : List String :=
  match raw with
  | .nullv => []
  | .str s =>
    let cleaned := cleanSlugRef s
    if cleaned != "" then [cleaned] else []
  | .arr l => (l.map cleanSlugRef).filter (fun s => decide (s.length > 0))

/-- Embedding of `normalizeTags` (`core/node.ts`). -/
def normalizeTags (raw : RawVal) : List String :=
  match raw with
  | .nullv => []
  | .str s => ((splitOnComma s).map (fun t => lowerString (trimString t))).filter (fun t => t != "")
  | .arr l => (l.map (fun t => trimString (lowerString t))).filter (fun t => t != "")

/-- The frontmatter fields of a node file after YAML extraction
(`NodeFrontmatter` in `core/node.ts`).  `created` is `none` both for a
missing field and for an unparsable date (`isNaN` fallback). -/
structure RawFrontmatter where
  title : Option String := none
  level : String
  reduces_to : RawVal := .nullv
  status : String := ""
  tags : RawVal := .nullv
  created : Option Int := none
deriving DecidableEq, Repr

/-- The `LEVELS.includes(levelStr)` check of `parseNodeFile`. -/
def parseLevel (s : String) : Option Level :=
  if s == "percept" then some .percept
  else if s == "axiom" then some .axm
  else if s == "principle" then some .principle
  else if s == "application" then some .application
  else none

/-- The `STATUSES.includes(statusStr)` check of `parseNodeFile`. -/
def parseStatus (s : String) : Option Status :=
  if s == "Integrated/Validated" then some .validated
  else if s == "Tentative/Hypothesis" then some .tentative
  else none

/-- Embedding of the metadata logic of `parseNodeFile` (`core/node.ts`)
after file IO and frontmatter extraction: level validation, the bedrock
status override (bedrock nodes read as Integrated/Validated no matter what
the file stores), the `created` fallback to the current time `now`, and
field normalization. -/
def parseNodeCore (slug : String) (fm : RawFrontmatter) (proposition : String)
    (now : Int) : Except LErr LatticeNode :=
  match parseLevel (trimString fm.level) with
  | none => .error (.invalidLevel (trimString fm.level))
  | some level =>
    let isBedrockNode := isBedrock level
    let statusRes : Except LErr Status :=
      if isBedrockNode then .ok .validated
      else
        match parseStatus (trimString fm.status) with
        | none => .error (.invalidStatus (trimString fm.status))
        | some st => .ok st
    match statusRes with
    | .error e => .error e
    | .ok status =>
      .ok { slug := slug,
            title := fm.title.getD slug,
            level := level,
            reduces_to := normalizeReducesTo fm.reduces_to,
            status := status,
            tags := normalizeTags fm.tags,
            proposition := proposition,
            created := fm.created.getD now }

/-- A weak link collected by `findHollowChains` (`core/graph.ts`):
slug, title and level of a Tentative ancestor. -/
structure WeakLink where
  slug : String
  title : String
  level : Level
deriving DecidableEq, Repr

/-- One entry of the `findHollowChains` result (`HollowChainResult`). -/
structure HollowChainResult where
  slug : String
  title : String
  level : Level
  weak_links : List WeakLink
deriving DecidableEq, Repr

/-- Embedding of the inner `while` loop of `findHollowChains`
(`core/graph.ts`): walk the full ancestor chain with a visited set,
collecting every stored Tentative ancestor and continuing past them.
Stack representation as in `cycleWalk` (list head = array end). -/
def hollowWalk (nodes : Store) :
    List String → List String → List WeakLink → List WeakLink
  | [], _, acc => acc
  | current :: rest, visited, acc =>
    if hv : visited.contains current then
      hollowWalk nodes rest visited acc
    else
      match hl : lookupNode nodes current with
      | none => hollowWalk nodes rest (current :: visited) acc
      | some ancestor =>
        let acc' := if ancestor.status = .tentative then
            acc ++ [{ slug := ancestor.slug, title := ancestor.title,
                      level := ancestor.level }]
          else acc
        hollowWalk nodes
          (ancestor.reduces_to.foldl (fun st p => p :: st) rest)
          (current :: visited) acc'
termination_by stack visited acc => (notVisitedCount nodes visited, stack.length)
decreasing_by
  · apply Prod.Lex.right
    simp
  · rw [notVisitedCountConsNone nodes current visited hl]
    apply Prod.Lex.right
    simp
  · apply Prod.Lex.left
    exact notVisitedCountConsLt nodes current visited ancestor hl (by simpa using hv)

/-- Embedding of `findHollowChains` (`core/graph.ts`): every
Integrated/Validated non-bedrock node whose full ancestor walk finds at
least one Tentative ancestor.  The JavaScript `[...node.reduces_to]` array
popped from the end is the reversed list in our stack representation. -/
def findHollowChains (nodes : Store) : List HollowChainResult :=
  nodes.filterMap (fun node =>
    if isBedrock node.level then none
    else if node.status != Status.validated then none
    else
      let weakLinks := hollowWalk nodes node.reduces_to.reverse [] []
      if weakLinks.isEmpty then none
      else some { slug := node.slug, title := node.title,
                  level := node.level, weak_links := weakLinks })

/-- Boolean form of the rank invariant of the spec: every `reduces_to`
entry that resolves to a stored node has strictly lower rank. -/
def rankInvariant (nodes : Store) : Bool :=
  nodes.all (fun n => n.reduces_to.all (fun p =>
    match lookupNode nodes p with
    | some pn => decide (LEVEL_RANK pn.level < LEVEL_RANK n.level)
    | none => true))

/-- Boolean form of link totality: every `reduces_to` entry resolves. -/
def noBrokenLinks (nodes : Store) : Bool :=
  nodes.all (fun n => n.reduces_to.all (fun p => (lookupNode nodes p).isSome))

/-- Issue kinds of the full integrity scan (`ValidationIssue` in
`core/graph.ts`). -/
inductive IssueType where
  | broken_link
  | level_mismatch
  | cycle
  | rogue_tag
  | missing_reduction
  | stale_tentative
deriving DecidableEq, Repr

/-- A reported integrity issue; the human-readable message string of the
source is display-only and not modelled. -/
structure ValidationIssue where
  slug : String
  type : IssueType
deriving DecidableEq, Repr

/-- Milliseconds per day (`dayMs` in `validateGraph`). -/
def dayMs : Int := 24 * 60 * 60 * 1000

/-- The per-node checks of `validateGraph` (`core/graph.ts`), in source
order: broken links, level ordering, missing reduction, rogue tags, and
stale tentatives (age measured against `now`, bedrock never stale). -/
def nodeIssues (nodes : Store) (tagSet : List String) (now : Int)
    (node : LatticeNode) : List ValidationIssue :=
  (node.reduces_to.filterMap (fun target =>
    if (lookupNode nodes target).isNone then
      some { slug := node.slug, type := IssueType.broken_link }
    else none))
  ++ (node.reduces_to.filterMap (fun target =>
    match lookupNode nodes target with
    | some targetNode =>
      if LEVEL_RANK node.level ≤ LEVEL_RANK targetNode.level then
        some { slug := node.slug, type := IssueType.level_mismatch }
      else none
    | none => none))
  ++ (if !(isBedrock node.level) && node.reduces_to.isEmpty then
      [{ slug := node.slug, type := IssueType.missing_reduction }]
    else [])
  ++ (node.tags.filterMap (fun tag =>
    if !(tagSet.contains tag) then
      some { slug := node.slug, type := IssueType.rogue_tag }
    else none))
  ++ (if !(isBedrock node.level) && node.status == Status.tentative
        && decide (now - node.created > 14 * dayMs) then
      [{ slug := node.slug, type := IssueType.stale_tentative }]
    else [])

/-- Set the first binding of a key in an association list (`Map.set` on an
existing key; appends when the key is absent). -/
def setAssoc (m : List (String × Int)) (key : String) (v : Int) :
    List (String × Int) :=
  match m with
  | [] => [(key, v)]
  | (k, w) :: rest =>
    if k == key then (k, v) :: rest else (k, w) :: setAssoc rest key v

/-- The in-degree table of `validateGraph`: zero for every stored slug,
then one increment per `reduces_to` edge whose target is a known key. -/
def initInDegree (nodes : Store) : List (String × Int) :=
  let init := nodes.map (fun n => (n.slug, (0 : Int)))
  nodes.foldl (fun m node =>
    node.reduces_to.foldl (fun m target =>
      match List.lookup target m with
      | some d => setAssoc m target (d + 1)
      | none => m) m) init

/-- The Kahn-style queue consumption of `validateGraph`.  Every slug is
enqueued at most once (a degree that reaches zero keeps falling), so the
`while` loop runs at most `nodes.length` times and that fuel makes the
fuelled recursion drain the queue exactly as the loop does. -/
def kahnLoop (nodes : Store) :
    Nat → List String → List (String × Int) → Nat → (Nat × List (String × Int))
  | 0, _, inDegree, processed => (processed, inDegree)
  | _ + 1, [], inDegree, processed => (processed, inDegree)
  | fuel + 1, current :: queue, inDegree, processed =>
    match lookupNode nodes current with
    | none => kahnLoop nodes fuel queue inDegree (processed + 1)
    | some node =>
      let st := node.reduces_to.foldl
        (fun (st : List String × List (String × Int)) target =>
          match List.lookup target st.2 with
          | some deg =>
            let newDeg := deg - 1
            (if newDeg == 0 then st.1 ++ [target] else st.1,
             setAssoc st.2 target newDeg)
          | none => st)
        (queue, inDegree)
      kahnLoop nodes fuel st.1 st.2 (processed + 1)

/-- Embedding of `validateGraph` (`core/graph.ts`): all per-node issues in
store order, then global cycle detection — after the topological
consumption, every slug left with positive in-degree is cycle-involved. -/
def validateGraph (nodes : Store) (masterTags : List String) (now : Int) :
    List ValidationIssue :=
  let perNode := nodes.flatMap (nodeIssues nodes masterTags now)
  let inDegree := initInDegree nodes
  let queue := inDegree.filterMap (fun kv => if kv.2 == 0 then some kv.1 else none)
  let res := kahnLoop nodes nodes.length queue inDegree 0
  let cycleIssues :=
    if res.1 < nodes.length then
      nodes.filterMap (fun n =>
        match List.lookup n.slug res.2 with
        | some deg =>
          if deg > 0 then some { slug := n.slug, type := IssueType.cycle }
          else none
        | none => none)
    else []
  perNode ++ cycleIssues

/-- The deletion set of `validate --fix-auto` (`commands/validate.ts`):
among the stale-tentative issues, those whose node exists, is not bedrock,
and has no `reduces_to` links at all.  Dry-run mode reports exactly this
list without deleting. -/
def fixAutoDeleteSlugs (nodes : Store) (masterTags : List String) (now : Int) :
    List String :=
  ((validateGraph nodes masterTags now).filter
      (fun i => i.type == IssueType.stale_tentative)).filterMap (fun issue =>
    match lookupNode nodes issue.slug with
    | none => none
    | some node =>
      if !(isBedrock node.level) && node.reduces_to.isEmpty then some issue.slug
      else none)

/-- The store after `validate --fix-auto` without dry-run: the files of
the deletion set are unlinked. -/
def fixAutoApply (nodes : Store) (masterTags : List String) (now : Int) : Store :=
  nodes.filter (fun n => !((fixAutoDeleteSlugs nodes masterTags now).contains n.slug))

/-- Rewrite every `reduces_to` entry that lies in `oldSlugs` to `newRef`:
the reference-rewriting loop of `dedup merge`. -/
def rewriteRefs (oldSlugs : List String) (newRef : String) (n : LatticeNode) :
    LatticeNode :=
  { n with reduces_to := n.reduces_to.map (fun r =>
      if oldSlugs.contains r then newRef else r) }

/-- The per-node validation loop of `dedup merge`: every old node must sit
at the level of the first old node, at the requested level, and must not
have been merged before. -/
def checkMergeNodes (expectedLevel givenLevel : Level) :
    List LatticeNode → Except LErr Unit
  | [] => .ok ()
  | n :: rest =>
    if n.level != expectedLevel then .error .mergeLevelConflict
    else if n.level != givenLevel then .error .mergeLevelConflict
    else if n.merged_into.isSome then .error (.alreadyMerged n.slug)
    else checkMergeNodes expectedLevel givenLevel rest

/-- The old-node resolution loop of `dedup merge`: each requested slug
must name a stored node, failing on the first that does not. -/
def resolveOldNodes (nodes : Store) : List String → Except LErr (List LatticeNode)
  | [] => .ok []
  | s :: rest =>
    match lookupNode nodes s with
    | none => .error (.nodeNotFound s)
    | some n =>
      match resolveOldNodes nodes rest with
      | .error e => .error e
      | .ok ns => .ok (n :: ns)

/-- Embedding of the store effect of `dedup merge` (`commands/dedup.ts`)
for an explicit old-node list: resolve the old nodes, check levels and
prior merges, create the canonical node (status Tentative, tags empty,
`reduces_to` inherited from the first old node, `merged_from` audit
entries), move each old node to trash stamped with `merged_into`, and
rewrite every remaining node's references to old members into the
canonical slug.  Returns the new active store and the trash contents. -/
def mergeCmd (nodes : Store) (oldSlugs : List String)
    (canonicalSlug title proposition : String) (level : Level)
    (created : Int) : Except LErr (Store × List LatticeNode) :=
  match resolveOldNodes nodes oldSlugs with
  | .error e => .error e
  | .ok [] => .error LErr.noOldNodes
  | .ok (first :: restOld) =>
    match checkMergeNodes first.level level (first :: restOld) with
    | .error e => .error e
    | .ok () =>
      if (nodes.map (fun n => n.slug)).contains canonicalSlug then
        .error (LErr.duplicateSlug canonicalSlug)
      else
        let canonical : LatticeNode :=
          { slug := canonicalSlug, title := title, level := level,
            reduces_to := first.reduces_to,
            status := .tentative, tags := [],
            proposition := proposition, created := created,
            merged_from := (first :: restOld).map (fun m =>
              { id := m.slug, original_status := m.status }) }
        let trash := (first :: restOld).map (fun m =>
          { m with merged_into := some canonicalSlug,
                   deduplication_group := none })
        let active :=
          ((nodes.filter (fun n => !(oldSlugs.contains n.slug))).map
            (rewriteRefs oldSlugs canonicalSlug)) ++ [canonical]
        Except.ok (active, trash)

/-- The member restoration loop of `dedup undo`: every `merged_from`
entry must still be in the trash; restoring clears the merge stamps and
reinstates the recorded original status. -/
def restoreEntries (trash : List LatticeNode) :
    List MergedFromEntry → Except LErr (List LatticeNode)
  | [] => .ok []
  | entry :: rest =>
    match lookupNode trash entry.id with
    | none => .error (.restoreFailed entry.id)
    | some t =>
      match restoreEntries trash rest with
      | .error e => .error e
      | .ok ns => .ok ({ t with
          status := entry.original_status,
          merged_into := none, deduplication_group := none } :: ns)

/-- One step of `dedup undo`'s oldest-member selection loop: keep the
best candidate unless the entry's restored node is strictly older. -/
def undoFoldStep (restored : Store) (best : String)
    (entry : MergedFromEntry) : String :=
  match lookupNode restored entry.id, lookupNode restored best with
  | some rn, some bn => if rn.created < bn.created then entry.id else best
  | _, _ => best

/-- Embedding of the store effect of `dedup undo` (`commands/dedup.ts`):
require `merged_from` metadata on the canonical node, restore every
trashed member to its original place with its original status (clearing
the merge stamps), pick the oldest restored member by `created`
(first-entry tie-break, exactly the source's running comparison), remove
the canonical node, and rewrite every remaining reference to the
canonical slug into the oldest member. -/
def undoCmd (nodes : Store) (trash : List LatticeNode) (canonicalSlug : String) :
    Except LErr Store :=
  match lookupNode nodes canonicalSlug with
  | none => .error (LErr.nodeNotFound canonicalSlug)
  | some canonicalNode =>
    match canonicalNode.merged_from with
    | [] => .error (LErr.notAMerge canonicalSlug)
    | firstEntry :: restEntries =>
      match restoreEntries trash (firstEntry :: restEntries) with
      | .error e => .error e
      | .ok restored =>
        let oldestId := (firstEntry :: restEntries).foldl
          (undoFoldStep restored) firstEntry.id
        let active :=
          restored ++
          ((nodes.filter (fun n => !(n.slug == canonicalSlug))).map (fun n =>
            { n with reduces_to := n.reduces_to.map (fun r =>
                if r == canonicalSlug then oldestId else r) }))
        .ok active

/-- Modelled from the spec: the scoring function of the connectivity
search.  The implementation of `findRelatedNodes` is absent from the
provided sources (only its caller in `commands/query.ts` and the
documented formula exist), so the score is taken from the spec:
reach_count × 2.0 + 1.0 / min_distance, plus 0.5 when Validated, plus 0.3
for the application (deduced) level, plus 0.2 for the principle (induced)
level — over exact rationals. -/
def relatedScore (reachCount : Nat) (minDistance : Nat) (status : Status)
    (level : Level) : ℚ :=
  (reachCount : ℚ) * 2 + 1 / (minDistance : ℚ)
    + (if status = .validated then 1/2 else 0)
    + (if level = .application then 3/10
       else if level = .principle then 1/5 else 0)

/-- Modelled from the spec: `reach_count` is the number of distinct seeds
that can reach the discovered node, for an abstract per-seed
reachability relation of the bounded bidirectional walk. -/
def reachCountOf (seeds : List String) (reaches : String → String → Bool)
    (x : String) : Nat :=
  (seeds.filter (fun s => reaches s x)).length

/-- Demo nodes and stores used by the concrete witnesses and
counterexamples below.  `demoPercept` is bedrock; `demoPrinciple` reduces
to it and is Tentative; `demoApp` reduces to the principle. -/
def demoPercept : LatticeNode :=
  { slug := "p", title := "p", level := .percept, reduces_to := [],
    status := .validated, tags := [], proposition := "", created := 0 }

/-- Demo principle, Tentative, grounded on the percept. -/
def demoPrinciple : LatticeNode :=
  { slug := "r", title := "r", level := .principle, reduces_to := ["p"],
    status := .tentative, tags := [], proposition := "", created := 10 }

/-- A second demo principle with an earlier creation date. -/
def demoPrinciple2 : LatticeNode :=
  { slug := "r2", title := "r2", level := .principle, reduces_to := ["p"],
    status := .tentative, tags := [], proposition := "", created := 5 }

/-- Demo application, Tentative, grounded on the principle. -/
def demoApp : LatticeNode :=
  { slug := "d", title := "d", level := .application, reduces_to := ["r"],
    status := .tentative, tags := [], proposition := "", created := 20 }

/-- Demo application already promoted to Integrated/Validated. -/
def demoAppValidated : LatticeNode :=
  { slug := "d", title := "d", level := .application, reduces_to := ["r"],
    status := .validated, tags := [], proposition := "", created := 20 }

/-- An abandoned draft: Tentative principle with no links. -/
def demoLonely : LatticeNode :=
  { slug := "l", title := "l", level := .principle, reduces_to := [],
    status := .tentative, tags := [], proposition := "", created := 0 }

/-- The basic demo store. -/
def demoStore : Store := [demoPercept, demoPrinciple, demoApp]

/-- Demo store whose application is Validated on top of a Tentative
principle — a hollow chain. -/
def demoHollowStore : Store := [demoPercept, demoPrinciple, demoAppValidated]

/-- Demo store with two same-level principles and a dependent application,
used by the merge/undo witness. -/
def demoMergeStore : Store := [demoPercept, demoPrinciple, demoPrinciple2, demoApp]


/-- A weak-link entry is good for predicate R when it is the projection of
a stored Tentative node reachable in the sense of R. -/
def GoodEntry (nodes : Store) (R : String → Prop) (e : WeakLink) : Prop :=
  ∃ y yn, R y ∧ lookupNode nodes y = some yn ∧ yn.status = Status.tentative ∧
    e = { slug := yn.slug, title := yn.title, level := yn.level }


-- ─── Theorems ─────────────────────────────────────────────────────────

theorem foldl_cons_eq (l init : List String) :
    l.foldl (fun st p => p :: st) init = l.reverse ++ init := by
  induction l generalizing init with
  | nil => simp
  | cons a t ih => simp [List.foldl, ih]

theorem mem_foldl_cons {x : String} {l init : List String} :
    x ∈ l.foldl (fun st p => p :: st) init ↔ x ∈ l ∨ x ∈ init := by
  rw [foldl_cons_eq]; simp [List.mem_append]

theorem reachVia_extend {nodes : Store} {n : LatticeNode} {c : String} :
    ∀ {a b : String}, ReachVia nodes [] a b → lookupNode nodes b = some n →
      c ∈ n.reduces_to → ReachVia nodes [] a c := by
  intro a b h
  induction h with
  | refl x =>
    intro hl hc
    exact ReachVia.step (List.not_mem_nil x) hl hc (ReachVia.refl c)
  | step hna hla hba hsub ih =>
    intro hl hc
    exact ReachVia.step hna hla hba (ih hl hc)

theorem reachVia_cut {nodes : Store} (cur : String) :
    ∀ {V : List String} {a b : String}, ReachVia nodes V a b →
      ReachVia nodes (cur :: V) a b ∨
      ∃ n, lookupNode nodes cur = some n ∧
        ∃ next ∈ n.reduces_to, ReachVia nodes (cur :: V) next b := by
  intro V a b h
  induction h with
  | refl x => exact Or.inl (ReachVia.refl x)
  | @step a b c n hna hla hba hsub ih =>
    rcases ih with hgood | hbad
    · by_cases hac : a = cur
      · subst hac
        exact Or.inr ⟨n, hla, b, hba, hgood⟩
      · refine Or.inl (ReachVia.step ?_ hla hba hgood)
        intro hmem
        rcases List.mem_cons.mp hmem with h1 | h1
        · exact hac h1
        · exact hna h1
    · exact Or.inr hbad

theorem cycleWalk_true {nodes : Store} {fromSlug root : String} :
    ∀ stack visited, (∀ t ∈ stack, ReachVia nodes [] root t) →
      cycleWalk nodes fromSlug stack visited = true →
      ReachVia nodes [] root fromSlug := by
  intro stack visited
  induction stack, visited using cycleWalk.induct nodes fromSlug with
  | case1 visited =>
    intro _ hfalse
    simp [cycleWalk] at hfalse
  | case2 rest visited =>
    intro hstack _
    exact hstack fromSlug (List.mem_cons_self _ _)
  | case3 current rest visited hne hv ih =>
    intro hstack hw
    rw [cycleWalk] at hw
    simp only [if_neg hne, dif_pos hv] at hw
    exact ih (fun t ht => hstack t (List.mem_cons_of_mem _ ht)) hw
  | case4 current rest visited hne hv hl ih =>
    intro hstack hw
    rw [cycleWalk] at hw
    simp only [if_neg hne, dif_neg hv] at hw
    split at hw
    · exact ih (fun t ht => hstack t (List.mem_cons_of_mem _ ht)) hw
    · rename_i n' heq
      rw [hl] at heq
      cases heq
  | case5 current rest visited hne hv n hl ih =>
    intro hstack hw
    rw [cycleWalk] at hw
    simp only [if_neg hne, dif_neg hv] at hw
    split at hw
    · rename_i heq
      rw [hl] at heq
      cases heq
    · rename_i n' heq
      rw [hl] at heq
      injection heq with heq
      subst heq
      refine ih (fun t ht => ?_) hw
      rcases mem_foldl_cons.mp ht with hpar | hrest
      · exact reachVia_extend (hstack current (List.mem_cons_self _ _)) hl hpar
      · exact hstack t (List.mem_cons_of_mem _ hrest)
theorem cycleWalk_false {nodes : Store} {fromSlug : String} :
    ∀ stack visited, cycleWalk nodes fromSlug stack visited = false →
      ∀ t ∈ stack, ¬ ReachVia nodes visited t fromSlug := by
  intro stack visited
  induction stack, visited using cycleWalk.induct nodes fromSlug with
  | case1 visited =>
    intro _ t ht
    simp at ht
  | case2 rest visited =>
    intro hw
    rw [cycleWalk] at hw
    simp at hw
  | case3 current rest visited hne hv ih =>
    intro hw t ht hreach
    rw [cycleWalk] at hw
    simp only [if_neg hne, dif_pos hv] at hw
    rcases List.mem_cons.mp ht with rfl | htr
    · cases hreach with
      | refl => exact hne rfl
      | step hna hla hba hsub => exact hna (by simpa using hv)
    · exact ih hw t htr hreach
  | case4 current rest visited hne hv hl ih =>
    intro hw t ht hreach
    rw [cycleWalk] at hw
    simp only [if_neg hne, dif_neg hv] at hw
    split at hw
    · rcases reachVia_cut current hreach with hgood | ⟨n', hn', _, _, _⟩
      · rcases List.mem_cons.mp ht with rfl | htr
        · cases hgood with
          | refl => exact hne rfl
          | step hna hla hba hsub => exact hna (List.mem_cons_self _ _)
        · exact ih hw t htr hgood
      · rw [hl] at hn'
        cases hn'
    · rename_i n' heq
      rw [hl] at heq
      cases heq
  | case5 current rest visited hne hv n hl ih =>
    intro hw t ht hreach
    rw [cycleWalk] at hw
    simp only [if_neg hne, dif_neg hv] at hw
    split at hw
    · rename_i heq
      rw [hl] at heq
      cases heq
    · rename_i n' heq
      rw [hl] at heq
      injection heq with heq
      subst heq
      rcases reachVia_cut current hreach with hgood | ⟨n'', hn'', next, hnext, hreachnext⟩
      · rcases List.mem_cons.mp ht with rfl | htr
        · cases hgood with
          | refl => exact hne rfl
          | step hna hla hba hsub => exact hna (List.mem_cons_self _ _)
        · exact ih hw t (mem_foldl_cons.mpr (Or.inr htr)) hgood
      · rw [hl] at hn''
        injection hn'' with hn''
        subst hn''
        exact ih hw next (mem_foldl_cons.mpr (Or.inl hnext)) hreachnext

theorem wouldCreateCycle_iff {nodes : Store} {fromSlug toSlug : String} :
    wouldCreateCycle fromSlug toSlug nodes = true ↔
      ReachVia nodes [] toSlug fromSlug := by
  unfold wouldCreateCycle
  by_cases heq : fromSlug = toSlug
  · subst heq
    simp [ReachVia.refl]
  · rw [if_neg heq]
    constructor
    · intro hw
      exact cycleWalk_true [toSlug] []
        (fun t ht => by
          rcases List.mem_singleton.mp ht with rfl
          exact ReachVia.refl _) hw
    · intro hreach
      by_contra hfalse
      rw [Bool.not_eq_true] at hfalse
      exact cycleWalk_false [toSlug] [] hfalse toSlug (List.mem_singleton.mpr rfl) hreach
theorem hollowWalk_sound {nodes : Store} {R : String → Prop}
    (hclosed : ∀ t n p, R t → lookupNode nodes t = some n → p ∈ n.reduces_to → R p) :
    ∀ stack visited acc, (∀ t ∈ stack, R t) →
      (∀ e ∈ acc, GoodEntry nodes R e) →
      ∀ e ∈ hollowWalk nodes stack visited acc, GoodEntry nodes R e := by
  intro stack visited acc
  induction stack, visited, acc using hollowWalk.induct nodes with
  | case1 visited acc =>
    intro _ hacc e he
    rw [hollowWalk] at he
    exact hacc e he
  | case2 current rest visited acc hv ih =>
    intro hstack hacc e he
    rw [hollowWalk] at he
    simp only [dif_pos hv] at he
    exact ih (fun t ht => hstack t (List.mem_cons_of_mem _ ht)) hacc e he
  | case3 current rest visited acc hv hl ih =>
    intro hstack hacc e he
    rw [hollowWalk] at he
    simp only [dif_neg hv] at he
    split at he
    · exact ih (fun t ht => hstack t (List.mem_cons_of_mem _ ht)) hacc e he
    · rename_i n' heq
      rw [hl] at heq
      cases heq
  | case4 current rest visited acc hv n hl acc' ih =>
    have hd : acc' = if n.status = Status.tentative then
        acc ++ [{ slug := n.slug, title := n.title, level := n.level }] else acc := rfl
    rw [hd] at ih
    intro hstack hacc e he
    rw [hollowWalk] at he
    simp only [dif_neg hv] at he
    split at he
    · rename_i heq
      rw [hl] at heq
      cases heq
    · rename_i n' heq
      rw [hl] at heq
      injection heq with heq
      subst heq
      refine ih (fun t ht => ?_) (fun e2 he2 => ?_) e he
      · rcases mem_foldl_cons.mp ht with hpar | hrest2
        · exact hclosed current n t (hstack current (List.mem_cons_self _ _)) hl hpar
        · exact hstack t (List.mem_cons_of_mem _ hrest2)
      · by_cases htent : n.status = Status.tentative
        · rw [if_pos htent] at he2
          rcases List.mem_append.mp he2 with hold | hnew
          · exact hacc e2 hold
          · rcases List.mem_singleton.mp hnew with rfl
            exact ⟨current, n, hstack current (List.mem_cons_self _ _), hl, htent, rfl⟩
        · rw [if_neg htent] at he2
          exact hacc e2 he2

theorem hollowWalk_nil {nodes : Store} :
    ∀ stack visited acc,
      (∀ v ∈ visited, ∀ vn, lookupNode nodes v = some vn →
        vn.status = Status.tentative → acc ≠ []) →
      hollowWalk nodes stack visited acc = [] →
      acc = [] ∧ ∀ t ∈ stack, ∀ y, ReachVia nodes visited t y →
        ∀ yn, lookupNode nodes y = some yn → yn.status ≠ Status.tentative := by
  intro stack visited acc
  induction stack, visited, acc using hollowWalk.induct nodes with
  | case1 visited acc =>
    intro hvis hw
    rw [hollowWalk] at hw
    refine ⟨hw, ?_⟩
    intro t ht
    simp at ht
  | case2 current rest visited acc hv ih =>
    intro hvis hw
    rw [hollowWalk] at hw
    simp only [dif_pos hv] at hw
    obtain ⟨hacc, hrest⟩ := ih hvis hw
    refine ⟨hacc, ?_⟩
    intro t ht y hreach yn hy htent
    rcases List.mem_cons.mp ht with rfl | htr
    · cases hreach with
      | refl => exact hvis t (by simpa using hv) yn hy htent hacc
      | step hna hla hba hsub => exact hna (by simpa using hv)
    · exact hrest t htr y hreach yn hy htent
  | case3 current rest visited acc hv hl ih =>
    intro hvis hw
    rw [hollowWalk] at hw
    simp only [dif_neg hv] at hw
    split at hw
    · have hvis2 : ∀ v ∈ current :: visited, ∀ vn, lookupNode nodes v = some vn →
          vn.status = Status.tentative → acc ≠ [] := by
        intro v hvmem vn hvn htent
        rcases List.mem_cons.mp hvmem with rfl | hvm
        · rw [hl] at hvn
          cases hvn
        · exact hvis v hvm vn hvn htent
      obtain ⟨hacc, hrest⟩ := ih hvis2 hw
      refine ⟨hacc, ?_⟩
      intro t ht y hreach yn hy htent
      rcases reachVia_cut current hreach with hgood | ⟨n', hn', _, _, _⟩
      · rcases List.mem_cons.mp ht with rfl | htr
        · cases hgood with
          | refl =>
            rw [hl] at hy
            cases hy
          | step hna hla hba hsub => exact hna (List.mem_cons_self _ _)
        · exact hrest t htr y hgood yn hy htent
      · rw [hl] at hn'
        cases hn'
    · rename_i n' heq
      rw [hl] at heq
      cases heq
  | case4 current rest visited acc hv n hl acc' ih =>
    have hd : acc' = if n.status = Status.tentative then
        acc ++ [{ slug := n.slug, title := n.title, level := n.level }] else acc := rfl
    rw [hd] at ih
    intro hvis hw
    rw [hollowWalk] at hw
    simp only [dif_neg hv] at hw
    split at hw
    · rename_i heq
      rw [hl] at heq
      cases heq
    · rename_i n' heq
      rw [hl] at heq
      injection heq with heq
      subst heq
      by_cases htn : n.status = Status.tentative
      · rw [if_pos htn] at ih hw
        have hvis2 : ∀ v ∈ current :: visited, ∀ vn, lookupNode nodes v = some vn →
            vn.status = Status.tentative →
            (acc ++ [({ slug := n.slug, title := n.title, level := n.level } : WeakLink)]) ≠ [] := by
          intro v _ vn _ _
          simp
        obtain ⟨hacc2, _⟩ := ih hvis2 hw
        simp at hacc2
      · rw [if_neg htn] at ih hw
        have hvis2 : ∀ v ∈ current :: visited, ∀ vn, lookupNode nodes v = some vn →
            vn.status = Status.tentative → acc ≠ [] := by
          intro v hvmem vn hvn htent
          rcases List.mem_cons.mp hvmem with rfl | hvm
          · rw [hl] at hvn
            injection hvn with hvn
            subst hvn
            exact absurd htent htn
          · exact hvis v hvm vn hvn htent
        obtain ⟨hacc, hrest⟩ := ih hvis2 hw
        refine ⟨hacc, ?_⟩
        intro t ht y hreach yn hy htent
        rcases reachVia_cut current hreach with hgood | ⟨n2, hn2, next, hnext, hrnext⟩
        · rcases List.mem_cons.mp ht with rfl | htr
          · cases hgood with
            | refl =>
              rw [hl] at hy
              injection hy with hy
              subst hy
              exact absurd htent htn
            | step hna hla hba hsub => exact hna (List.mem_cons_self _ _)
          · exact hrest t (mem_foldl_cons.mpr (Or.inr htr)) y hgood yn hy htent
        · rw [hl] at hn2
          injection hn2 with hn2
          subst hn2
          exact hrest next (mem_foldl_cons.mpr (Or.inl hnext)) y hrnext yn hy htent
theorem slug_inj {nodes : Store} (hnd : (nodes.map (fun n => n.slug)).Nodup)
    {a b : LatticeNode} (ha : a ∈ nodes) (hb : b ∈ nodes) (hsl : a.slug = b.slug) :
    a = b := by
  induction nodes with
  | nil => simp at ha
  | cons x t ih =>
    simp only [List.map_cons, List.nodup_cons] at hnd
    rcases List.mem_cons.mp ha with rfl | hat
    · rcases List.mem_cons.mp hb with rfl | hbt
      · rfl
      · exact absurd (hsl ▸ List.mem_map_of_mem (fun n => n.slug) hbt) hnd.1
    · rcases List.mem_cons.mp hb with rfl | hbt
      · exact absurd (hsl ▸ List.mem_map_of_mem (fun n => n.slug) hat) hnd.1
      · exact ih hnd.2 hat hbt

theorem lookup_of_mem {nodes : Store}
    (hnd : (nodes.map (fun n => n.slug)).Nodup) {n : LatticeNode} (hn : n ∈ nodes) :
    lookupNode nodes n.slug = some n := by
  induction nodes with
  | nil => simp at hn
  | cons x t ih =>
    simp only [List.map_cons, List.nodup_cons] at hnd
    rcases List.mem_cons.mp hn with rfl | hnt
    · simp [lookupNode, List.find?_cons]
    · have hx : (x.slug == n.slug) = false := by
        have : x.slug ≠ n.slug := by
          intro hcontra
          exact hnd.1 (hcontra ▸ List.mem_map_of_mem (fun m => m.slug) hnt)
        simpa using this
      rw [lookupNode, List.find?_cons, hx]
      exact ih hnd.2 hnt

/-- C6: `findHollowChains` returns (an entry for) node X iff X is
Integrated/Validated, non-bedrock, and some node reachable from X via
`reduces_to` edges at any depth (here: reachable from one of X's direct
parents, including the parent itself) has status Tentative/Hypothesis. -/
theorem C6_hollow (nodes : Store)
    (hnd : (nodes.map (fun n => n.slug)).Nodup) (x : LatticeNode) (hx : x ∈ nodes) :
    (∃ r ∈ findHollowChains nodes, r.slug = x.slug) ↔
      (x.status = Status.validated ∧ isBedrock x.level = false ∧
        ∃ p ∈ x.reduces_to, ∃ y yn, ReachVia nodes [] p y ∧
          lookupNode nodes y = some yn ∧ yn.status = Status.tentative) := by
  constructor
  · rintro ⟨r, hr, hslug⟩
    obtain ⟨a, ha, hfa⟩ := List.mem_filterMap.mp hr
    by_cases hb : isBedrock a.level
    · rw [if_pos hb] at hfa
      cases hfa
    · rw [if_neg hb] at hfa
      by_cases hs : (a.status != Status.validated) = true
      · rw [if_pos hs] at hfa
        cases hfa
      · rw [if_neg hs] at hfa
        by_cases hemp : (hollowWalk nodes a.reduces_to.reverse [] []).isEmpty = true
        · rw [if_pos hemp] at hfa
          cases hfa
        · rw [if_neg hemp] at hfa
          injection hfa with hfa
          subst hfa
          have hax : a = x := slug_inj hnd ha hx hslug
          subst hax
          have hval : a.status = Status.validated := by
            simpa using hs
          have hnonempty : hollowWalk nodes a.reduces_to.reverse [] [] ≠ [] := by
            intro hcontra
            rw [hcontra] at hemp
            simp at hemp
          obtain ⟨e, he⟩ := List.exists_mem_of_ne_nil _ hnonempty
          have hgood := hollowWalk_sound
            (R := fun t => ∃ p ∈ a.reduces_to, ReachVia nodes [] p t)
            (fun t m q ⟨p, hp, hre⟩ hlk hq => ⟨p, hp, reachVia_extend hre hlk hq⟩)
            a.reduces_to.reverse [] []
            (fun t ht => ⟨t, List.mem_reverse.mp ht, ReachVia.refl t⟩)
            (fun e2 he2 => absurd he2 (List.not_mem_nil e2))
            e he
          obtain ⟨y, yn, ⟨p, hp, hre⟩, hlk, htent, _⟩ := hgood
          refine ⟨hval, by simpa using hb, p, hp, y, yn, hre, hlk, htent⟩
  · rintro ⟨hval, hnb, p, hp, y, yn, hre, hlk, htent⟩
    have hb : ¬ isBedrock x.level = true := by simp [hnb]
    have hs : ¬ (x.status != Status.validated) = true := by simp [hval]
    have hnonempty : ¬ (hollowWalk nodes x.reduces_to.reverse [] []).isEmpty = true := by
      intro hcontra
      have hnil : hollowWalk nodes x.reduces_to.reverse [] [] = [] :=
        List.isEmpty_iff.mp hcontra
      have := (hollowWalk_nil x.reduces_to.reverse [] []
        (fun v hv => absurd hv (List.not_mem_nil v)) hnil).2
      exact this p (List.mem_reverse.mpr hp) y hre yn hlk htent
    refine ⟨{ slug := x.slug, title := x.title, level := x.level,
              weak_links := hollowWalk nodes x.reduces_to.reverse [] [] }, ?_, rfl⟩
    apply List.mem_filterMap.mpr
    refine ⟨x, hx, ?_⟩
    rw [if_neg hb, if_neg hs, if_neg hnonempty]

theorem validateLevelOrder_ok_iff (a b : Level) :
    validateLevelOrder a b = .ok () ↔ LEVEL_RANK b < LEVEL_RANK a := by
  unfold validateLevelOrder
  by_cases h : LEVEL_RANK a ≤ LEVEL_RANK b
  · rw [if_pos h]
    constructor
    · intro hcontra
      cases hcontra
    · intro hlt
      exact absurd hlt (by omega)
  · rw [if_neg h]
    constructor
    · intro _
      omega
    · intro _
      rfl

theorem vrl_ok_iff (s : String) (lvl : Level) (ts : List String) (nodes : Store) :
    validateReductionLinks s lvl ts nodes = .ok () ↔
      ∀ t ∈ ts, ∃ n, lookupNode nodes t = some n ∧
        LEVEL_RANK n.level < LEVEL_RANK lvl ∧ ¬ ReachVia nodes [] t s := by
  induction ts with
  | nil => simp [validateReductionLinks]
  | cons t rest ih =>
    rw [validateReductionLinks]
    split
    · rename_i heq
      constructor
      · intro h
        cases h
      · intro h
        obtain ⟨n, hn, -, -⟩ := h t (List.mem_cons_self _ _)
        rw [heq] at hn
        cases hn
    · rename_i target heq
      split
      · rename_i e heq2
        constructor
        · intro h
          cases h
        · intro h
          obtain ⟨n', hn', hrank, -⟩ := h t (List.mem_cons_self _ _)
          rw [heq] at hn'
          injection hn' with hn'
          subst hn'
          rw [(validateLevelOrder_ok_iff lvl target.level).mpr hrank] at heq2
          cases heq2
      · rename_i heq2
        by_cases hcyc : wouldCreateCycle s t nodes = true
        · rw [if_pos hcyc]
          constructor
          · intro h
            cases h
          · intro h
            obtain ⟨n', hn', -, hnreach⟩ := h t (List.mem_cons_self _ _)
            exact absurd (wouldCreateCycle_iff.mp hcyc) hnreach
        · rw [if_neg hcyc, ih]
          constructor
          · intro h t' ht'
            rcases List.mem_cons.mp ht' with rfl | htr
            · refine ⟨target, heq, (validateLevelOrder_ok_iff lvl target.level).mp heq2, ?_⟩
              intro hreach
              exact hcyc (wouldCreateCycle_iff.mpr hreach)
            · exact h t' htr
          · intro h t' ht'
            exact h t' (List.mem_cons_of_mem _ ht')

theorem vrl_error_targetNotFound {s : String} {lvl : Level} {ts : List String}
    {nodes : Store} {t : String}
    (h : validateReductionLinks s lvl ts nodes = .error (.targetNotFound t)) :
    t ∈ ts ∧ lookupNode nodes t = none := by
  induction ts with
  | nil =>
    rw [validateReductionLinks] at h
    cases h
  | cons t0 rest ih =>
    rw [validateReductionLinks] at h
    split at h
    · rename_i heq
      injection h with h
      injection h with h
      subst h
      exact ⟨List.mem_cons_self _ _, heq⟩
    · rename_i target heq
      split at h
      · rename_i e heq2
        injection h with h
        subst h
        unfold validateLevelOrder at heq2
        split at heq2
        · injection heq2 with heq2
          cases heq2
        · cases heq2
      · split at h
        · cases h
        · obtain ⟨hmem, hnone⟩ := ih h
          exact ⟨List.mem_cons_of_mem _ hmem, hnone⟩

theorem vrl_error_levelMismatch {s : String} {lvl : Level} {ts : List String}
    {nodes : Store} {a b : Level}
    (h : validateReductionLinks s lvl ts nodes = .error (.levelMismatch a b)) :
    a = lvl ∧ ∃ t ∈ ts, ∃ n, lookupNode nodes t = some n ∧ n.level = b ∧
      LEVEL_RANK lvl ≤ LEVEL_RANK n.level := by
  induction ts with
  | nil =>
    rw [validateReductionLinks] at h
    cases h
  | cons t0 rest ih =>
    rw [validateReductionLinks] at h
    split at h
    · injection h with h
      cases h
    · rename_i target heq
      split at h
      · rename_i e heq2
        injection h with h
        subst h
        unfold validateLevelOrder at heq2
        split at heq2
        · rename_i hle
          injection heq2 with heq2
          injection heq2 with ha hb
          exact ⟨ha.symm, t0, List.mem_cons_self _ _, target, heq, hb, hle⟩
        · cases heq2
      · split at h
        · cases h
        · obtain ⟨ha, t', hmem, rest'⟩ := ih h
          exact ⟨ha, t', List.mem_cons_of_mem _ hmem, rest'⟩

theorem vrl_error_cycle {s : String} {lvl : Level} {ts : List String}
    {nodes : Store}
    (h : validateReductionLinks s lvl ts nodes = .error .cycleDetected) :
    ∃ t ∈ ts, ∃ n, lookupNode nodes t = some n ∧
      LEVEL_RANK n.level < LEVEL_RANK lvl ∧ ReachVia nodes [] t s := by
  induction ts with
  | nil =>
    rw [validateReductionLinks] at h
    cases h
  | cons t0 rest ih =>
    rw [validateReductionLinks] at h
    split at h
    · injection h with h
      cases h
    · rename_i target heq
      split at h
      · rename_i e heq2
        injection h with h
        subst h
        unfold validateLevelOrder at heq2
        split at heq2
        · injection heq2 with heq2
          cases heq2
        · cases heq2
      · rename_i heq2
        split at h
        · rename_i hcyc
          exact ⟨t0, List.mem_cons_self _ _, target, heq,
            (validateLevelOrder_ok_iff lvl target.level).mp heq2,
            wouldCreateCycle_iff.mp hcyc⟩
        · obtain ⟨t', hmem, rest'⟩ := ih h
          exact ⟨t', List.mem_cons_of_mem _ hmem, rest'⟩

theorem lookup_pushIncoming (m : List (String × List String)) (target slug k : String) :
    List.lookup k (pushIncoming m target slug) =
      if k = target then some ((List.lookup k m).getD [] ++ [slug])
      else List.lookup k m := by
  induction m with
  | nil =>
    by_cases hk : k = target
    · subst hk
      simp [pushIncoming, List.lookup]
    · have hb : (k == target) = false := by simpa using hk
      simp [pushIncoming, List.lookup, hb, hk]
  | cons kv rest ih =>
    obtain ⟨k0, v0⟩ := kv
    by_cases h0 : k0 = target
    · subst h0
      rw [pushIncoming, if_pos (by simp)]
      by_cases hk : k = k0
      · subst hk
        simp [List.lookup]
      · have hb : (k == k0) = false := by simpa using hk
        simp [List.lookup, hb, hk]
    · rw [pushIncoming, if_neg (by simp [h0])]
      by_cases hk : k = k0
      · subst hk
        rw [if_neg h0]
        simp [List.lookup]
      · have hb : (k == k0) = false := by simpa using hk
        rw [List.lookup, List.lookup, hb]
        simp only []
        exact ih

theorem lookup_foldIncoming (slug k : String) (l : List String) :
    ∀ m, (List.lookup k (l.foldl (fun m target => pushIncoming m target slug) m)).getD []
      = (List.lookup k m).getD [] ++ List.replicate (l.count k) slug := by
  induction l with
  | nil =>
    intro m
    simp
  | cons t rest ih =>
    intro m
    rw [List.foldl_cons, ih]
    by_cases hk : k = t
    · subst hk
      rw [lookup_pushIncoming, if_pos rfl]
      simp [List.count_cons, List.replicate_succ, List.append_assoc]
    · have hb : (k == t) = false := by simpa using hk
      rw [lookup_pushIncoming, if_neg hk]
      simp [List.count_cons, hb]
      exact fun hcontra => hk hcontra.symm

theorem lookup_initIncoming (k : String) (ns : Store) :
    (List.lookup k (ns.map (fun n => (n.slug, ([] : List String))))).getD [] = [] := by
  induction ns with
  | nil => simp
  | cons x t ih =>
    rw [List.map_cons, List.lookup]
    by_cases hk : (k == x.slug) = true
    · rw [hk]
      simp
    · rw [Bool.not_eq_true] at hk
      rw [hk]
      exact ih

theorem incomingOf_eq (nodes : Store) (k : String) :
    incomingOf nodes k =
      nodes.flatMap (fun n => List.replicate (n.reduces_to.count k) n.slug) := by
  have hgen : ∀ (ns : Store) (m : List (String × List String)),
      (List.lookup k (ns.foldl
        (fun m node => node.reduces_to.foldl
          (fun m target => pushIncoming m target node.slug) m) m)).getD []
      = (List.lookup k m).getD [] ++
        ns.flatMap (fun n => List.replicate (n.reduces_to.count k) n.slug) := by
    intro ns
    induction ns with
    | nil =>
      intro m
      simp
    | cons x t ih =>
      intro m
      rw [List.foldl_cons, ih, lookup_foldIncoming]
      simp [List.append_assoc]
  have hmain := hgen nodes (nodes.map (fun n => (n.slug, ([] : List String))))
  rw [lookup_initIncoming] at hmain
  simp only [List.nil_append] at hmain
  unfold incomingOf buildIncomingLinks
  rw [← hmain]
  cases List.lookup k (nodes.foldl
      (fun m node => node.reduces_to.foldl
        (fun m target => pushIncoming m target node.slug) m)
      (nodes.map (fun n => (n.slug, ([] : List String))))) <;> simp

theorem incomingOf_ne_nil_iff (nodes : Store) (k : String) :
    incomingOf nodes k ≠ [] ↔ ∃ n ∈ nodes, k ∈ n.reduces_to := by
  rw [incomingOf_eq]
  constructor
  · intro h
    obtain ⟨e, he⟩ := List.exists_mem_of_ne_nil _ h
    obtain ⟨n, hn, hrep⟩ := List.mem_flatMap.mp he
    refine ⟨n, hn, ?_⟩
    have hcount : n.reduces_to.count k ≠ 0 := by
      intro hzero
      rw [hzero] at hrep
      simp at hrep
    exact List.count_pos_iff.mp (Nat.pos_of_ne_zero hcount)
  · rintro ⟨n, hn, hk⟩
    intro hnil
    have hmem : n.slug ∈ nodes.flatMap
        (fun n => List.replicate (n.reduces_to.count k) n.slug) := by
      apply List.mem_flatMap.mpr
      refine ⟨n, hn, ?_⟩
      apply List.mem_replicate.mpr
      refine ⟨?_, rfl⟩
      have := List.count_pos_iff.mpr hk
      omega
    rw [hnil] at hmem
    simp at hmem

theorem addFold_mono {α : Type} [BEq α] (l : List α) (acc : List α × Bool)
    (h : acc.2 = true) :
    (l.foldl (fun acc t => if acc.1.contains t then acc else (acc.1 ++ [t], true)) acc).2
      = true := by
  induction l generalizing acc with
  | nil => exact h
  | cons a t ih =>
    rw [List.foldl_cons]
    by_cases hc : acc.1.contains a
    · rw [if_pos hc]
      exact ih acc h
    · rw [if_neg hc]
      exact ih _ rfl

theorem addFold_false {α : Type} [BEq α] (l : List α) (acc : List α × Bool)
    (h : (l.foldl (fun acc t => if acc.1.contains t then acc else (acc.1 ++ [t], true)) acc).2
      = false) :
    l.foldl (fun acc t => if acc.1.contains t then acc else (acc.1 ++ [t], true)) acc
      = acc := by
  induction l generalizing acc with
  | nil => rfl
  | cons a t ih =>
    rw [List.foldl_cons] at h ⊢
    by_cases hc : acc.1.contains a
    · rw [if_pos hc] at h ⊢
      exact ih acc h
    · rw [if_neg hc] at h
      have := addFold_mono t (acc.1 ++ [a], true) rfl
      rw [h] at this
      cases this

theorem addFold_mem {α : Type} [BEq α] (l : List α) (acc : List α × Bool) :
    ∀ x ∈ (l.foldl (fun acc t => if acc.1.contains t then acc
      else (acc.1 ++ [t], true)) acc).1, x ∈ acc.1 ∨ x ∈ l := by
  induction l generalizing acc with
  | nil =>
    intro x hx
    exact Or.inl hx
  | cons a t ih =>
    intro x hx
    rw [List.foldl_cons] at hx
    by_cases hc : acc.1.contains a
    · rw [if_pos hc] at hx
      rcases ih acc x hx with h1 | h1
      · exact Or.inl h1
      · exact Or.inr (List.mem_cons_of_mem _ h1)
    · rw [if_neg hc] at hx
      rcases ih (acc.1 ++ [a], true) x hx with h1 | h1
      · rcases List.mem_append.mp h1 with h2 | h2
        · exact Or.inl h2
        · exact Or.inr (List.mem_cons.mpr (Or.inl (List.mem_singleton.mp h2)))
      · exact Or.inr (List.mem_cons_of_mem _ h1)

theorem redState_inversion {nodes : Store} {slug : String} {node : LatticeNode}
    {addList : List String} {redState : List String × Bool}
    (hred : (if addList.isEmpty then Except.ok (node.reduces_to, false)
      else
        match validateReductionLinks slug node.level (addList.map stripMdTrim) nodes with
        | .error e => Except.error e
        | .ok () =>
          Except.ok ((addList.map stripMdTrim).foldl
            (fun acc r => if acc.1.contains r then acc else (acc.1 ++ [r], true))
            (node.reduces_to, false))) = Except.ok redState) :
    (∀ r ∈ redState.1, r ∈ node.reduces_to ∨
      (addList ≠ [] ∧ r ∈ addList.map stripMdTrim ∧
        validateReductionLinks slug node.level (addList.map stripMdTrim) nodes
          = .ok ())) ∧
    (redState.2 = false → redState.1 = node.reduces_to) := by
  by_cases hadd : addList.isEmpty
  · rw [if_pos hadd] at hred
    injection hred with hred
    rw [← hred]
    exact ⟨fun r hr => Or.inl hr, fun _ => rfl⟩
  · rw [if_neg hadd] at hred
    split at hred
    · cases hred
    · rename_i hvalid
      injection hred with hred
      constructor
      · intro r hr
        rw [← hred] at hr
        rcases addFold_mem _ _ r hr with h1 | h1
        · exact Or.inl h1
        · refine Or.inr ⟨?_, h1, hvalid⟩
          intro hcontra
          rw [hcontra] at hadd
          simp at hadd
      · intro hflag
        rw [← hred] at hflag
        have := addFold_false _ _ hflag
        rw [← hred, this]

theorem updateCmd_ok_inversion {nodes : Store} {masterTags : List String}
    {slug : String} {opts : UpdateOpts} {res : Store × LatticeNode}
    (hok : updateCmd nodes masterTags slug opts = .ok res) :
    ∃ node, lookupNode nodes slug = some node ∧
      res.1 = nodes.map (fun n => if n.slug == slug then res.2 else n) ∧
      res.2.slug = node.slug ∧
      res.2.level = node.level ∧
      res.2.created = node.created ∧
      (∀ r ∈ res.2.reduces_to, r ∈ node.reduces_to ∨
        (opts.addReducesTo ≠ [] ∧ r ∈ opts.addReducesTo.map stripMdTrim ∧
          validateReductionLinks slug node.level
            (opts.addReducesTo.map stripMdTrim) nodes = .ok ())) ∧
      (opts.status = none → node.level ≠ Level.percept → res.2.reduces_to = [] →
        res.2.reduces_to ≠ node.reduces_to → res.2.status = Status.tentative) := by
  simp only [updateCmd] at hok
  split at hok
  · cases hok
  · rename_i node hlook
    refine ⟨node, hlook, ?_⟩
    split at hok
    · cases hok
    · rename_i tagState htag
      split at hok
      · cases hok
      · rename_i redState hred
        obtain ⟨hmem, hunchanged⟩ := redState_inversion hred
        by_cases hremove : opts.removeReducesTo.isEmpty
        · rw [if_pos hremove] at hok
          split at hok
          · injection hok with hpair
            have hstore := congrArg Prod.fst hpair
            have hn2 := congrArg Prod.snd hpair
            refine ⟨?_, by rw [← hn2], by rw [← hn2], by rw [← hn2], ?_, ?_⟩
            · rw [← hstore, ← hn2]
            · intro r hr
              rw [← hn2] at hr
              have hr2 : r ∈ redState.1 := hr
              exact hmem r hr2
            · intro hsnone hnp hempty hchanged
              rw [← hn2] at hempty hchanged ⊢
              have hempty2 : redState.1 = [] := hempty
              have hchanged2 : redState.1 ≠ node.reduces_to := hchanged
              have hflag : redState.2 = true := by
                by_contra hf
                rw [Bool.not_eq_true] at hf
                exact hchanged2 (hunchanged hf)
              have hnp2 : (node.level == Level.percept) = false := by
                simpa using hnp
              show (if redState.2 && !(node.level == Level.percept)
                  && redState.1.isEmpty && opts.status.isNone then
                  some Status.tentative
                else opts.status).getD node.status = Status.tentative
              rw [hflag, hnp2, hempty2, hsnone]
              rfl
          · cases hok
        · rw [if_neg hremove] at hok
          by_cases hlen : ((redState.1.filter (fun r =>
              !((opts.removeReducesTo.map stripMdTrim).contains r))).length
                != redState.1.length) = true
          · rw [if_pos hlen] at hok
            split at hok
            · injection hok with hpair
              have hstore := congrArg Prod.fst hpair
              have hn2 := congrArg Prod.snd hpair
              refine ⟨?_, by rw [← hn2], by rw [← hn2], by rw [← hn2], ?_, ?_⟩
              · rw [← hstore, ← hn2]
              · intro r hr
                rw [← hn2] at hr
                have hr2 : r ∈ redState.1.filter (fun r =>
                    !((opts.removeReducesTo.map stripMdTrim).contains r)) := hr
                exact hmem r (List.mem_filter.mp hr2).1
              · intro hsnone hnp hempty hchanged
                rw [← hn2] at hempty ⊢
                have hempty2 : redState.1.filter (fun r =>
                    !((opts.removeReducesTo.map stripMdTrim).contains r)) = [] := hempty
                have hnp2 : (node.level == Level.percept) = false := by
                  simpa using hnp
                show (if (redState.1.filter (fun r =>
                      !((opts.removeReducesTo.map stripMdTrim).contains r)), true).2
                    && !(node.level == Level.percept)
                    && (redState.1.filter (fun r =>
                      !((opts.removeReducesTo.map stripMdTrim).contains r))).isEmpty
                    && opts.status.isNone then
                    some Status.tentative
                  else opts.status).getD node.status = Status.tentative
                rw [hempty2, hnp2, hsnone]
                rfl
            · cases hok
          · rw [if_neg hlen] at hok
            split at hok
            · injection hok with hpair
              have hstore := congrArg Prod.fst hpair
              have hn2 := congrArg Prod.snd hpair
              refine ⟨?_, by rw [← hn2], by rw [← hn2], by rw [← hn2], ?_, ?_⟩
              · rw [← hstore, ← hn2]
              · intro r hr
                rw [← hn2] at hr
                have hr2 : r ∈ redState.1 := hr
                exact hmem r hr2
              · intro hsnone hnp hempty hchanged
                rw [← hn2] at hempty hchanged ⊢
                have hempty2 : redState.1 = [] := hempty
                have hchanged2 : redState.1 ≠ node.reduces_to := hchanged
                have hflag : redState.2 = true := by
                  by_contra hf
                  rw [Bool.not_eq_true] at hf
                  exact hchanged2 (hunchanged hf)
                have hnp2 : (node.level == Level.percept) = false := by
                  simpa using hnp
                show (if redState.2 && !(node.level == Level.percept)
                    && redState.1.isEmpty && opts.status.isNone then
                    some Status.tentative
                  else opts.status).getD node.status = Status.tentative
                rw [hflag, hnp2, hempty2, hsnone]
                rfl
            · cases hok

/-- C1: the promotion parent check is missing from the code.  The spec
says an update that promotes a node from Tentative/Hypothesis to
Integrated/Validated fails with `UnvalidatedParent` iff some direct
`reduces_to` parent is still Tentative — but `validateParentsAreValidated`
has no call site, so the update command promotes unconditionally.  At the
demo store, promoting "d" (whose direct parent "r" is Tentative) succeeds
and stores Integrated/Validated, while the orphaned helper applied to the
same parents raises `UnvalidatedParent` as the spec demands. -/
theorem C1_promotion_parent_check_missing :
    ((updateCmd demoStore [] "d" { status := some Status.validated }).map
      (fun r => r.2.status) = .ok Status.validated) ∧
    demoApp.reduces_to = ["r"] ∧
    lookupNode demoStore "r" = some demoPrinciple ∧
    demoPrinciple.status = Status.tentative ∧
    validateParentsAreValidated demoApp.reduces_to demoStore =
      .error (.unvalidatedParent "r") :=
  ⟨by rfl, by rfl, by rfl, by rfl, by rfl⟩

/-- C4 (counterexample): the claim says a bedrock node loaded from disk
has an empty `reduces_to` set regardless of the stored value; but
`parseNodeFile` only overrides the status — a percept file storing
`reduces_to: [[other.md]]` parses with the nonempty set `["other"]`
(while its garbage-independent status does read Integrated/Validated). -/
theorem C4_bedrock_reduces_to_counterexample :
    (parseNodeCore "s"
      { level := "percept", status := "Tentative/Hypothesis",
        reduces_to := RawVal.str "[[other.md]]" } "prop" 7).map
      (fun n => (n.level, n.status, n.reduces_to)) =
      .ok (Level.percept, Status.validated, ["other"]) := by rfl

/-- C4 (amended): every successfully parsed bedrock node reads
Integrated/Validated no matter what status the file stores, and its
`reduces_to` set is the normalized stored list — not forced empty. -/
theorem C4_bedrock_parse_amended (slug : String) (fm : RawFrontmatter)
    (proposition : String) (now : Int) (node : LatticeNode)
    (hok : parseNodeCore slug fm proposition now = .ok node)
    (hb : isBedrock node.level = true) :
    node.status = Status.validated ∧
    node.reduces_to = normalizeReducesTo fm.reduces_to := by
  simp only [parseNodeCore] at hok
  split at hok
  · cases hok
  · rename_i level hlevel
    split at hok
    · cases hok
    · rename_i status heq
      injection hok with hok
      by_cases hbl : isBedrock level = true
      · rw [if_pos hbl] at heq
        injection heq with heq
        subst heq
        rw [← hok]
        exact ⟨rfl, rfl⟩
      · rw [if_neg hbl] at heq
        have hlev : node.level = level := by
          rw [← hok]
        rw [hlev] at hb
        exact absurd hb hbl

/-- Witness for C4 (amended) at the counterexample input: the parsed
percept reads Validated with the stored link list. -/
theorem C4_bedrock_parse_amended_witness :
    ({ slug := "s", title := "s", level := Level.percept,
       reduces_to := ["other"], status := Status.validated, tags := [],
       proposition := "prop", created := 7 } : LatticeNode).status
        = Status.validated ∧
    ({ slug := "s", title := "s", level := Level.percept,
       reduces_to := ["other"], status := Status.validated, tags := [],
       proposition := "prop", created := 7 } : LatticeNode).reduces_to
        = normalizeReducesTo (RawVal.str "[[other.md]]") :=
  C4_bedrock_parse_amended "s"
    { level := "percept", status := "Tentative/Hypothesis",
      reduces_to := RawVal.str "[[other.md]]" } "prop" 7 _ (by rfl) (by rfl)

/-- C8 (counterexample): the claim says removing all `reduces_to` edges
from a non-bedrock node automatically forces its status back to
Tentative/Hypothesis; but when the same update also passes an explicit
`--status`, the explicit status wins — removing the principle's only edge
while setting Integrated/Validated leaves a Validated node with no
links. -/
theorem C8_explicit_status_counterexample :
    (updateCmd demoStore [] "r"
      { status := some Status.validated, removeReducesTo := ["p"] }).map
        (fun r => (r.2.level, r.2.status, r.2.reduces_to)) =
      .ok (Level.principle, Status.validated, []) := by rfl

/-- C8 (amended): when an update leaves a non-bedrock node with no
`reduces_to` links after actually changing them, and the same update did
not explicitly request a status, the node's status is forced back to
Tentative/Hypothesis. -/
theorem C8_force_tentative_amended (nodes : Store) (masterTags : List String)
    (slug : String) (opts : UpdateOpts) (node : LatticeNode)
    (res : Store × LatticeNode)
    (hok : updateCmd nodes masterTags slug opts = .ok res)
    (hlook : lookupNode nodes slug = some node)
    (hnb : isBedrock node.level = false)
    (hsnone : opts.status = none)
    (hempty : res.2.reduces_to = [])
    (hchanged : res.2.reduces_to ≠ node.reduces_to) :
    res.2.status = Status.tentative := by
  obtain ⟨node', hlook', -, -, -, -, hforce⟩ := updateCmd_ok_inversion hok
  rw [hlook] at hlook'
  injection hlook' with hlook'
  subst hlook'
  refine hforce.2 hsnone ?_ hempty hchanged
  intro hp
  rw [hp] at hnb
  simp [isBedrock] at hnb

/-- Witness for C8 (amended): removing the demo principle's only link,
with no explicit status, forces it back to Tentative/Hypothesis. -/
theorem C8_force_tentative_amended_witness :
    updateCmd demoStore [] "r" { removeReducesTo := ["p"] } =
      .ok ([demoPercept,
            { demoPrinciple with status := Status.tentative, reduces_to := [] },
            demoApp],
           { demoPrinciple with status := Status.tentative, reduces_to := [] }) ∧
    (([demoPercept,
       { demoPrinciple with status := Status.tentative, reduces_to := [] },
       demoApp],
      ({ demoPrinciple with status := Status.tentative, reduces_to := [] }
        : LatticeNode)) : Store × LatticeNode).2.status = Status.tentative :=
  ⟨by rfl,
   C8_force_tentative_amended demoStore [] "r" { removeReducesTo := ["p"] }
     demoPrinciple _ (by rfl) (by rfl) (by rfl) rfl (by rfl) (by decide)⟩

/-- Witness for C6 at the demo hollow store: the Validated application "d"
is reported, because its direct parent "r" is itself Tentative. -/
theorem C6_hollow_witness :
    ∃ r ∈ findHollowChains demoHollowStore, r.slug = demoAppValidated.slug :=
  (C6_hollow demoHollowStore (by decide) demoAppValidated
      (List.mem_cons_of_mem _ (List.mem_cons_of_mem _ (List.mem_cons_self _ _)))).mpr
    ⟨rfl, rfl, "r", List.mem_cons_self _ _, "r", demoPrinciple,
      ReachVia.refl "r", rfl, rfl⟩

/-- C7: deleting a stored Integrated/Validated node with at least one
incoming `reduces_to` edge fails with `DeleteBlocked`; deleting the same
node once it is Tentative/Hypothesis, or once no stored node points at it,
succeeds and removes exactly that node. -/
theorem C7_delete_rules (nodes : Store) (slug : String) (node : LatticeNode)
    (hlook : lookupNode nodes slug = some node) :
    (node.status = Status.validated → (∃ n ∈ nodes, slug ∈ n.reduces_to) →
      ∃ k, 0 < k ∧ deleteCmd nodes slug = .error (.deleteBlocked slug k)) ∧
    ((node.status = Status.tentative ∨ ∀ n ∈ nodes, slug ∉ n.reduces_to) →
      deleteCmd nodes slug = .ok (nodes.filter (fun n => !(n.slug == slug)))) := by
  constructor
  · intro hval hinc
    have hne : incomingOf nodes slug ≠ [] :=
      (incomingOf_ne_nil_iff nodes slug).mpr hinc
    have hpos : 0 < (incomingOf nodes slug).length := List.length_pos.mpr hne
    refine ⟨(incomingOf nodes slug).length, hpos, ?_⟩
    simp only [deleteCmd, hlook]
    rw [if_pos hval, if_pos hpos]
  · intro hok
    rcases hok with htent | hnoinc
    · have hnv : ¬ node.status = Status.validated := by
        rw [htent]
        intro hcontra
        cases hcontra
      simp only [deleteCmd, hlook]
      rw [if_neg hnv]
    · have hnil : incomingOf nodes slug = [] := by
        by_contra hcontra
        obtain ⟨n, hn, hmem⟩ := (incomingOf_ne_nil_iff nodes slug).mp hcontra
        exact hnoinc n hn hmem
      by_cases hval : node.status = Status.validated
      · simp only [deleteCmd, hlook]
        rw [if_pos hval, if_neg (by rw [hnil]; simp)]
      · simp only [deleteCmd, hlook]
        rw [if_neg hval]

/-- Witness for C7: in the demo hollow store the Validated percept "p"
(pointed at by the principle) is protected, while the Tentative principle
"r" (also pointed at) deletes fine. -/
theorem C7_delete_rules_witness :
    (∃ k, 0 < k ∧
      deleteCmd demoHollowStore "p" = .error (.deleteBlocked "p" k)) ∧
    deleteCmd demoStore "r" =
      .ok (demoStore.filter (fun n => !(n.slug == "r"))) :=
  ⟨(C7_delete_rules demoHollowStore "p" demoPercept (by rfl)).1 rfl
      ⟨demoPrinciple,
        List.mem_cons_of_mem _ (List.mem_cons_self _ _),
        List.mem_cons_self _ _⟩,
    (C7_delete_rules demoStore "r" demoPrinciple (by rfl)).2 (Or.inl rfl)⟩

/-- C9: for the connectivity-search scoring (modelled from the spec, since
`findRelatedNodes` itself is absent from the sources), a node reachable
from two distinct seeds has `reach_count ≥ 2`, and its score is strictly
higher than an otherwise-identical node with `reach_count = 1` — the
reach-count term dominates by a margin of 2 per extra seed. -/
theorem C9_related_score (seeds : List String)
    (reaches : String → String → Bool) (x s1 s2 : String)
    (h1 : s1 ∈ seeds) (h2 : s2 ∈ seeds) (hne : s1 ≠ s2)
    (hr1 : reaches s1 x = true) (hr2 : reaches s2 x = true) :
    2 ≤ reachCountOf seeds reaches x ∧
    ∀ (y : String) (d : Nat) (st : Status) (lvl : Level),
      reachCountOf seeds reaches y = 1 →
      relatedScore (reachCountOf seeds reaches y) d st lvl
        < relatedScore (reachCountOf seeds reaches x) d st lvl := by
  have hm1 : s1 ∈ seeds.filter (fun s => reaches s x) :=
    List.mem_filter.mpr ⟨h1, hr1⟩
  have hm2 : s2 ∈ seeds.filter (fun s => reaches s x) :=
    List.mem_filter.mpr ⟨h2, hr2⟩
  have hsub : ({s1, s2} : Finset String) ⊆
      (seeds.filter (fun s => reaches s x)).toFinset := by
    intro a ha
    rcases Finset.mem_insert.mp ha with rfl | ha
    · exact List.mem_toFinset.mpr hm1
    · rw [Finset.mem_singleton] at ha
      subst ha
      exact List.mem_toFinset.mpr hm2
  have hcount : 2 ≤ reachCountOf seeds reaches x := by
    have hcard : ({s1, s2} : Finset String).card = 2 := by
      rw [Finset.card_insert_of_not_mem (by simpa using hne),
        Finset.card_singleton]
    calc 2 = ({s1, s2} : Finset String).card := hcard.symm
      _ ≤ (seeds.filter (fun s => reaches s x)).toFinset.card :=
          Finset.card_le_card hsub
      _ ≤ (seeds.filter (fun s => reaches s x)).length :=
          List.toFinset_card_le _
  refine ⟨hcount, ?_⟩
  intro y d st lvl hy
  rw [hy]
  have hx2 : (2 : ℚ) ≤ (reachCountOf seeds reaches x : ℚ) := by
    exact_mod_cast hcount
  unfold relatedScore
  simp only [Nat.cast_one]
  have hmul : (1 : ℚ) * 2 < (reachCountOf seeds reaches x : ℚ) * 2 := by
    linarith
  linarith

/-- Witness for C9 at a concrete two-seed search: "x" is reached from both
seeds, "y" only from the first, and "x" scores strictly higher. -/
theorem C9_related_score_witness :
    2 ≤ reachCountOf ["a", "b"]
        (fun s t => t == "x" || (s == "a" && t == "y")) "x" ∧
    relatedScore (reachCountOf ["a", "b"]
        (fun s t => t == "x" || (s == "a" && t == "y")) "y") 1
        Status.validated Level.application
      < relatedScore (reachCountOf ["a", "b"]
        (fun s t => t == "x" || (s == "a" && t == "y")) "x") 1
        Status.validated Level.application :=
  ⟨(C9_related_score ["a", "b"]
      (fun s t => t == "x" || (s == "a" && t == "y")) "x" "a" "b"
      (by decide) (by decide) (by decide) (by rfl) (by rfl)).1,
    (C9_related_score ["a", "b"]
      (fun s t => t == "x" || (s == "a" && t == "y")) "x" "a" "b"
      (by decide) (by decide) (by decide) (by rfl) (by rfl)).2
      "y" 1 Status.validated Level.application (by rfl)⟩

theorem filterMap_congr_mem {α β : Type} {l : List α} {f g : α → Option β}
    (h : ∀ a ∈ l, f a = g a) : l.filterMap f = l.filterMap g := by
  induction l with
  | nil => rfl
  | cons a t ih =>
    rw [List.filterMap_cons, List.filterMap_cons, h a (List.mem_cons_self _ _),
      ih (fun b hb => h b (List.mem_cons_of_mem _ hb))]

theorem filter_congr_mem {α : Type} {l : List α} {p q : α → Bool}
    (h : ∀ a ∈ l, p a = q a) : l.filter p = l.filter q := by
  induction l with
  | nil => rfl
  | cons a t ih =>
    rw [List.filter_cons, List.filter_cons, h a (List.mem_cons_self _ _),
      ih (fun b hb => h b (List.mem_cons_of_mem _ hb))]

theorem filterMap_if {α β : Type} (l : List α) (p : α → Bool) (f : α → β) :
    l.filterMap (fun a => if p a then some (f a) else none) =
      (l.filter p).map f := by
  induction l with
  | nil => rfl
  | cons a t ih =>
    by_cases hp : p a <;>
      simp [List.filterMap_cons, List.filter_cons, hp, ih]

theorem filter_filter_mem {α : Type} (l : List α) (p q : α → Bool) :
    (l.filter p).filter q = l.filter (fun a => p a && q a) := by
  induction l with
  | nil => rfl
  | cons a t ih =>
    by_cases hp : p a <;> by_cases hq : q a <;>
      simp [List.filter_cons, hp, hq, ih]

theorem filter_stale_filterMap_none {α : Type} (l : List α)
    (g : α → Option ValidationIssue) (ty : IssueType)
    (hty : ty ≠ IssueType.stale_tentative)
    (hg : ∀ a i, g a = some i → i.type = ty) :
    (l.filterMap g).filter (fun i => i.type == IssueType.stale_tentative)
      = [] := by
  apply List.filter_eq_nil_iff.mpr
  intro i hi
  obtain ⟨a, ha, hga⟩ := List.mem_filterMap.mp hi
  have := hg a i hga
  simp [this, hty]

theorem nodeIssues_filter_stale (nodes : Store) (tagSet : List String)
    (now : Int) (node : LatticeNode) :
    (nodeIssues nodes tagSet now node).filter
        (fun i => i.type == IssueType.stale_tentative) =
      (if !(isBedrock node.level) && node.status == Status.tentative
          && decide (now - node.created > 14 * dayMs) then
        [{ slug := node.slug, type := IssueType.stale_tentative }]
      else ([] : List ValidationIssue)) := by
  unfold nodeIssues
  rw [List.filter_append, List.filter_append, List.filter_append,
    List.filter_append]
  have h1 : (node.reduces_to.filterMap (fun target =>
      if (lookupNode nodes target).isNone then
        some ({ slug := node.slug, type := IssueType.broken_link }
          : ValidationIssue)
      else none)).filter (fun i => i.type == IssueType.stale_tentative)
        = [] := by
    apply filter_stale_filterMap_none _ _ IssueType.broken_link (by decide)
    intro a i h
    split at h
    · injection h with h
      rw [← h]
    · cases h
  have h2 : (node.reduces_to.filterMap (fun target =>
      match lookupNode nodes target with
      | some targetNode =>
        if LEVEL_RANK node.level ≤ LEVEL_RANK targetNode.level then
          some ({ slug := node.slug, type := IssueType.level_mismatch }
            : ValidationIssue)
        else none
      | none => none)).filter
        (fun i => i.type == IssueType.stale_tentative) = [] := by
    apply filter_stale_filterMap_none _ _ IssueType.level_mismatch (by decide)
    intro a i h
    split at h
    · split at h
      · injection h with h
        rw [← h]
      · cases h
    · cases h
  have h3 : ((if !(isBedrock node.level) && node.reduces_to.isEmpty then
      [{ slug := node.slug, type := IssueType.missing_reduction }]
    else []) : List ValidationIssue).filter
      (fun i => i.type == IssueType.stale_tentative) = [] := by
    split <;> rfl
  have h4 : (node.tags.filterMap (fun tag =>
      if !(tagSet.contains tag) then
        some ({ slug := node.slug, type := IssueType.rogue_tag }
          : ValidationIssue)
      else none)).filter (fun i => i.type == IssueType.stale_tentative)
        = [] := by
    apply filter_stale_filterMap_none _ _ IssueType.rogue_tag (by decide)
    intro a i h
    split at h
    · injection h with h
      rw [← h]
    · cases h
  rw [h1, h2, h3, h4]
  simp only [List.nil_append]
  split <;> rfl

theorem filter_stale_cycleIssues (nodes : Store) (c : Prop) [Decidable c]
    (m : List (String × Int)) :
    ((if c then nodes.filterMap (fun n =>
        match List.lookup n.slug m with
        | some deg =>
          if deg > 0 then
            some ({ slug := n.slug, type := IssueType.cycle }
              : ValidationIssue)
          else none
        | none => none)
      else []).filter (fun i => i.type == IssueType.stale_tentative))
      = [] := by
  split
  · apply filter_stale_filterMap_none _ _ IssueType.cycle (by decide)
    intro a i h
    split at h
    · split at h
      · injection h with h
        rw [← h]
      · cases h
    · cases h
  · rfl

theorem validateGraph_filter_stale (nodes : Store) (masterTags : List String)
    (now : Int) :
    (validateGraph nodes masterTags now).filter
        (fun i => i.type == IssueType.stale_tentative) =
      (nodes.filter (fun n => !(isBedrock n.level)
        && n.status == Status.tentative
        && decide (now - n.created > 14 * dayMs))).map
        (fun n => { slug := n.slug, type := IssueType.stale_tentative }) := by
  have hflat : ∀ (l : Store),
      (l.flatMap (nodeIssues nodes masterTags now)).filter
        (fun i => i.type == IssueType.stale_tentative) =
      (l.filter (fun n => !(isBedrock n.level)
        && n.status == Status.tentative
        && decide (now - n.created > 14 * dayMs))).map
        (fun n => { slug := n.slug, type := IssueType.stale_tentative }) := by
    intro l
    induction l with
    | nil => rfl
    | cons a t ih =>
      rw [List.flatMap_cons, List.filter_append, ih, nodeIssues_filter_stale,
        List.filter_cons]
      by_cases hc : (!(isBedrock a.level) && a.status == Status.tentative
          && decide (now - a.created > 14 * dayMs)) = true <;> simp [hc]
  simp only [validateGraph]
  rw [List.filter_append, hflat, filter_stale_cycleIssues, List.append_nil]

/-- C10: `validate --fix-auto` deletes exactly the nodes that are
simultaneously Tentative/Hypothesis, older than the 14-day staleness
threshold, and have zero `reduces_to` edges: the reported deletion set is
exactly that filter of the store, and the surviving store drops exactly
those nodes.  (`fixAutoDeleteSlugs` is by construction both the dry-run
report and the non-dry-run deletion set, mirroring the source loop, whose
per-node criterion does not depend on its interleaved deletions.)
Hypotheses: slugs are unique, and bedrock nodes are Validated — as every
node loaded from disk is. -/
theorem C10_fix_auto (nodes : Store) (masterTags : List String) (now : Int)
    (hnd : (nodes.map (fun n => n.slug)).Nodup)
    (hbed : ∀ n ∈ nodes, isBedrock n.level = true →
      n.status = Status.validated) :
    fixAutoDeleteSlugs nodes masterTags now =
      (nodes.filter (fun n => n.status == Status.tentative
        && decide (now - n.created > 14 * dayMs)
        && n.reduces_to.isEmpty)).map (fun n => n.slug) ∧
    fixAutoApply nodes masterTags now =
      nodes.filter (fun n => !(n.status == Status.tentative
        && decide (now - n.created > 14 * dayMs)
        && n.reduces_to.isEmpty)) := by
  have hcritEq : ∀ n ∈ nodes,
      ((!(isBedrock n.level) && n.status == Status.tentative
        && decide (now - n.created > 14 * dayMs)) && n.reduces_to.isEmpty)
      = (n.status == Status.tentative
        && decide (now - n.created > 14 * dayMs) && n.reduces_to.isEmpty) := by
    intro n hn
    by_cases hb : isBedrock n.level = true
    · have hval := hbed n hn hb
      have ht : (n.status == Status.tentative) = false := by
        rw [hval]
        rfl
      rw [hb, ht]
      rfl
    · have hb' : isBedrock n.level = false := by
        simpa using hb
      rw [hb']
      rfl
  have hdel : fixAutoDeleteSlugs nodes masterTags now =
      (nodes.filter (fun n => n.status == Status.tentative
        && decide (now - n.created > 14 * dayMs)
        && n.reduces_to.isEmpty)).map (fun n => n.slug) := by
    unfold fixAutoDeleteSlugs
    rw [validateGraph_filter_stale, List.filterMap_map]
    refine Eq.trans (filterMap_congr_mem
      (g := fun n => if n.reduces_to.isEmpty then some n.slug else none)
      ?_) ?_
    · intro n hn
      obtain ⟨hnn, hcrit⟩ := List.mem_filter.mp hn
      have hlook := lookup_of_mem hnd hnn
      have hbfalse : (!(isBedrock n.level)) = true := by
        simp only [Bool.and_eq_true] at hcrit
        exact hcrit.1.1
      dsimp only [Function.comp]
      simp only [hlook]
      rw [hbfalse, Bool.true_and]
    · rw [filterMap_if, filter_filter_mem]
      exact congrArg (List.map (fun n => n.slug)) (filter_congr_mem hcritEq)
  refine ⟨hdel, ?_⟩
  unfold fixAutoApply
  rw [hdel]
  apply filter_congr_mem
  intro n hn
  suffices h : (((nodes.filter (fun n => n.status == Status.tentative
      && decide (now - n.created > 14 * dayMs)
      && n.reduces_to.isEmpty)).map (fun n => n.slug)).contains n.slug)
      = (n.status == Status.tentative
      && decide (now - n.created > 14 * dayMs) && n.reduces_to.isEmpty) by
    rw [h]
  by_cases hc : (n.status == Status.tentative
      && decide (now - n.created > 14 * dayMs) && n.reduces_to.isEmpty) = true
  · rw [hc]
    exact List.elem_eq_true_of_mem
      (List.mem_map_of_mem _ (List.mem_filter.mpr ⟨hn, hc⟩))
  · have hc' : (n.status == Status.tentative
        && decide (now - n.created > 14 * dayMs)
        && n.reduces_to.isEmpty) = false := by
      simpa using hc
    rw [hc']
    cases hb : ((nodes.filter (fun n => n.status == Status.tentative
        && decide (now - n.created > 14 * dayMs)
        && n.reduces_to.isEmpty)).map (fun n => n.slug)).contains n.slug
    · rfl
    · obtain ⟨m, hmf, hms⟩ := List.mem_map.mp (List.mem_of_elem_eq_true hb)
      obtain ⟨hmn, hcm⟩ := List.mem_filter.mp hmf
      have hmneq : m = n := slug_inj hnd hmn hn hms
      rw [hmneq] at hcm
      rw [hcm] at hc'
      exact hc'

/-- Witness for C10 at a concrete store: the abandoned draft "l"
(Tentative, no links, created 20 days before `now`) is the whole deletion
set, while the Tentative-but-linked principle survives. -/
theorem C10_fix_auto_witness :
    fixAutoDeleteSlugs [demoPercept, demoLonely, demoPrinciple] []
        (20 * dayMs) =
      ([demoPercept, demoLonely, demoPrinciple].filter
        (fun n => n.status == Status.tentative
          && decide (20 * dayMs - n.created > 14 * dayMs)
          && n.reduces_to.isEmpty)).map (fun n => n.slug) ∧
    fixAutoApply [demoPercept, demoLonely, demoPrinciple] [] (20 * dayMs) =
      [demoPercept, demoLonely, demoPrinciple].filter
        (fun n => !(n.status == Status.tentative
          && decide (20 * dayMs - n.created > 14 * dayMs)
          && n.reduces_to.isEmpty)) :=
  C10_fix_auto [demoPercept, demoLonely, demoPrinciple] [] (20 * dayMs)
    (by decide) (by decide)

theorem addCmd_ok_inversion {nodes : Store} {masterTags : List String}
    {newSlug : String} {created : Int} {opts : AddOpts} {nodes' : Store}
    (hok : addCmd nodes masterTags newSlug created opts = .ok nodes') :
    nodes' = nodes ++ [{
      slug := newSlug, title := opts.title,
      level := opts.level, reduces_to := opts.reducesTo.map stripMdTrim,
      status := opts.status, tags := opts.tags,
      proposition := opts.proposition, created := created }] ∧
    ((nodes.map (fun n => n.slug)).contains newSlug) = false ∧
    (opts.reducesTo.map stripMdTrim = [] ∨
      validateReductionLinks newSlug opts.level
        (opts.reducesTo.map stripMdTrim) nodes = .ok ()) := by
  simp only [addCmd] at hok
  split at hok
  · cases hok
  · split at hok
    · cases hok
    · split at hok
      · cases hok
      · split at hok
        · cases hok
        · rename_i heq
          split at hok
          · cases hok
          · rename_i hdup
            injection hok with hok
            refine ⟨hok.symm, by simpa using hdup, ?_⟩
            by_cases hemp : (opts.reducesTo.map stripMdTrim).isEmpty = true
            · exact Or.inl (List.isEmpty_iff.mp hemp)
            · rw [if_neg hemp] at heq
              exact Or.inr heq

/-- C3 (counterexample): the claim says the reduction-link validator
fails with `CycleDetected` exactly when the source is reachable from a
target (including source = target); but the validator checks targets one
at a time and the first failing target's error wins.  Here the target
list is `["d", "r"]` with source "r": target "r" equals the source (the
cycle condition holds), yet the reported error is the earlier target's
`LevelMismatch`. -/
theorem C3_first_error_masks_cycle :
    validateReductionLinks "r" Level.principle ["d", "r"] demoStore =
      .error (.levelMismatch Level.principle Level.application) ∧
    ReachVia demoStore [] "r" "r" :=
  ⟨by rfl, ReachVia.refl "r"⟩

/-- C3 (amended): the reduction-link validator succeeds iff every target
exists, sits strictly below the source's rank, and cannot reach the
source; each error kind is sound for the first failing target
(`TargetNotFound` → some listed target is unstored, `LevelMismatch` →
some stored target's rank is not strictly lower, `CycleDetected` → some
stored target reaches the source), but no error kind is complete, since
an earlier target's failure masks a later one's.  And no edge is
committed on failure: a successful add implies the whole target list
passed the validator. -/
theorem C3_reduction_link_validator_amended :
    (∀ (s : String) (lvl : Level) (ts : List String) (nodes : Store),
      validateReductionLinks s lvl ts nodes = .ok () ↔
        ∀ t ∈ ts, ∃ n, lookupNode nodes t = some n ∧
          LEVEL_RANK n.level < LEVEL_RANK lvl ∧ ¬ ReachVia nodes [] t s) ∧
    (∀ (s : String) (lvl : Level) (ts : List String) (nodes : Store)
        (t : String),
      validateReductionLinks s lvl ts nodes = .error (.targetNotFound t) →
      t ∈ ts ∧ lookupNode nodes t = none) ∧
    (∀ (s : String) (lvl : Level) (ts : List String) (nodes : Store)
        (a b : Level),
      validateReductionLinks s lvl ts nodes = .error (.levelMismatch a b) →
      a = lvl ∧ ∃ t ∈ ts, ∃ n, lookupNode nodes t = some n ∧ n.level = b ∧
        LEVEL_RANK lvl ≤ LEVEL_RANK n.level) ∧
    (∀ (s : String) (lvl : Level) (ts : List String) (nodes : Store),
      validateReductionLinks s lvl ts nodes = .error .cycleDetected →
      ∃ t ∈ ts, ∃ n, lookupNode nodes t = some n ∧
        LEVEL_RANK n.level < LEVEL_RANK lvl ∧ ReachVia nodes [] t s) ∧
    (∀ (nodes : Store) (masterTags : List String) (newSlug : String)
        (created : Int) (opts : AddOpts) (nodes' : Store),
      addCmd nodes masterTags newSlug created opts = .ok nodes' →
      opts.reducesTo.map stripMdTrim ≠ [] →
      validateReductionLinks newSlug opts.level
        (opts.reducesTo.map stripMdTrim) nodes = .ok ()) :=
  ⟨fun s lvl ts nodes => vrl_ok_iff s lvl ts nodes,
    fun _ _ _ _ _ h => vrl_error_targetNotFound h,
    fun _ _ _ _ _ _ h => vrl_error_levelMismatch h,
    fun _ _ _ _ h => vrl_error_cycle h,
    fun _ _ _ _ _ _ hok hne =>
      Or.resolve_left (addCmd_ok_inversion hok).2.2 hne⟩

/-- Witness for C3 (amended), exercising the `TargetNotFound` soundness
conjunct at a concrete failing call. -/
theorem C3_reduction_link_validator_amended_witness :
    "x" ∈ ["x"] ∧ lookupNode demoStore "x" = none :=
  C3_reduction_link_validator_amended.2.1 "r" Level.principle ["x"]
    demoStore "x" (by rfl)

theorem find?_append_some {α : Type} {l1 l2 : List α} {p : α → Bool} {x : α}
    (h : l1.find? p = some x) : (l1 ++ l2).find? p = some x := by
  induction l1 with
  | nil => simp [List.find?] at h
  | cons a t ih =>
    rw [List.cons_append]
    by_cases hp : p a = true
    · rw [List.find?_cons_of_pos _ hp] at h ⊢
      exact h
    · rw [List.find?_cons_of_neg _ hp] at h ⊢
      exact ih h

theorem find?_map_pres {α : Type} {l : List α} {f : α → α} {p : α → Bool}
    (hpres : ∀ a, p (f a) = p a) :
    (l.map f).find? p = (l.find? p).map f := by
  induction l with
  | nil => rfl
  | cons a t ih =>
    rw [List.map_cons]
    by_cases hp : p a = true
    · rw [List.find?_cons_of_pos _ (by rw [hpres]; exact hp),
        List.find?_cons_of_pos _ hp]
      rfl
    · rw [List.find?_cons_of_neg _ (by rw [hpres]; exact hp),
        List.find?_cons_of_neg _ hp]
      exact ih

theorem lookup_append_some {nodes l : Store} {p : String} {pn : LatticeNode}
    (h : lookupNode nodes p = some pn) :
    lookupNode (nodes ++ l) p = some pn :=
  find?_append_some h

theorem lookup_mem_slug {nodes : Store} {a : String} {n : LatticeNode}
    (h : lookupNode nodes a = some n) : n ∈ nodes ∧ n.slug = a := by
  refine ⟨List.mem_of_find?_eq_some h, ?_⟩
  have h2 := List.find?_some h
  simpa using h2

theorem rankInvariant_iff (nodes : Store) :
    rankInvariant nodes = true ↔
      ∀ n ∈ nodes, ∀ p ∈ n.reduces_to, ∀ pn,
        lookupNode nodes p = some pn →
        LEVEL_RANK pn.level < LEVEL_RANK n.level := by
  unfold rankInvariant
  rw [List.all_eq_true]
  constructor
  · intro h n hn p hp pn hlk
    have h2 := h n hn
    rw [List.all_eq_true] at h2
    have h3 := h2 p hp
    rw [hlk] at h3
    exact of_decide_eq_true h3
  · intro h n hn
    rw [List.all_eq_true]
    intro p hp
    cases hlk : lookupNode nodes p with
    | none => rfl
    | some pn => exact decide_eq_true (h n hn p hp pn hlk)

theorem noBrokenLinks_iff (nodes : Store) :
    noBrokenLinks nodes = true ↔
      ∀ n ∈ nodes, ∀ p ∈ n.reduces_to, ∃ pn,
        lookupNode nodes p = some pn := by
  unfold noBrokenLinks
  rw [List.all_eq_true]
  constructor
  · intro h n hn p hp
    have h2 := h n hn
    rw [List.all_eq_true] at h2
    exact Option.isSome_iff_exists.mp (h2 p hp)
  · intro h n hn
    rw [List.all_eq_true]
    intro p hp
    obtain ⟨pn, hpn⟩ := h n hn p hp
    rw [hpn]
    rfl

theorem reachVia_rank_le {nodes : Store} (hinv : rankInvariant nodes = true)
    {a b : String} (h : ReachVia nodes [] a b) :
    ∀ {an bn : LatticeNode}, lookupNode nodes a = some an →
      lookupNode nodes b = some bn →
      LEVEL_RANK bn.level ≤ LEVEL_RANK an.level := by
  induction h with
  | refl c =>
    intro an bn ha hb
    rw [ha] at hb
    injection hb with hb
    rw [hb]
  | step hnotin hlk hmem hrest ih =>
    rename_i x y z n
    intro an bn ha hb
    have han : an = n := by
      rw [ha] at hlk
      exact Option.some.inj hlk
    cases hly : lookupNode nodes y with
    | none =>
      cases hrest with
      | refl =>
        rw [hly] at hb
        cases hb
      | step hni hlk2 hm2 hr2 =>
        rw [hly] at hlk2
        cases hlk2
    | some yn =>
      have h1 : LEVEL_RANK yn.level < LEVEL_RANK n.level :=
        (rankInvariant_iff nodes).mp hinv n (lookup_mem_slug hlk).1 y hmem
          yn hly
      have h2 : LEVEL_RANK bn.level ≤ LEVEL_RANK yn.level := ih hly hb
      rw [han]
      omega

theorem rankInvariant_acyclic {nodes : Store}
    (hinv : rankInvariant nodes = true) (s : String) :
    ¬ ReachPlus nodes s s := by
  rintro ⟨n, hlk, p, hp, hreach⟩
  cases hlp : lookupNode nodes p with
  | none =>
    cases hreach with
    | refl =>
      rw [hlp] at hlk
      cases hlk
    | step hni hlk2 hm2 hr2 =>
      rw [hlp] at hlk2
      cases hlk2
  | some pn =>
    have h1 : LEVEL_RANK pn.level < LEVEL_RANK n.level :=
      (rankInvariant_iff nodes).mp hinv n (lookup_mem_slug hlk).1 p hp pn hlp
    have h2 : LEVEL_RANK n.level ≤ LEVEL_RANK pn.level :=
      reachVia_rank_le hinv hreach hlp hlk
    omega

theorem addCmd_preserves {nodes : Store} {masterTags : List String}
    {newSlug : String} {created : Int} {opts : AddOpts} {nodes' : Store}
    (hinv : rankInvariant nodes = true) (hnb : noBrokenLinks nodes = true)
    (hok : addCmd nodes masterTags newSlug created opts = .ok nodes') :
    rankInvariant nodes' = true ∧ noBrokenLinks nodes' = true := by
  obtain ⟨hstore, hdup, hlinks⟩ := addCmd_ok_inversion hok
  subst hstore
  constructor
  · apply (rankInvariant_iff _).mpr
    intro m hm p hp pn hlk
    rcases List.mem_append.mp hm with hmn | hmnew
    · obtain ⟨pn0, hpn0⟩ := (noBrokenLinks_iff nodes).mp hnb m hmn p hp
      rw [lookup_append_some hpn0] at hlk
      injection hlk with h2
      subst h2
      exact (rankInvariant_iff nodes).mp hinv m hmn p hp pn0 hpn0
    · have hmeq := List.mem_singleton.mp hmnew
      subst hmeq
      have hp2 : p ∈ opts.reducesTo.map stripMdTrim := hp
      rcases hlinks with hempty | hvrl
      · rw [hempty] at hp2
        simp at hp2
      · obtain ⟨n0, hn0, hrank, -⟩ := (vrl_ok_iff _ _ _ _).mp hvrl p hp2
        rw [lookup_append_some hn0] at hlk
        injection hlk with h2
        subst h2
        exact hrank
  · apply (noBrokenLinks_iff _).mpr
    intro m hm p hp
    rcases List.mem_append.mp hm with hmn | hmnew
    · obtain ⟨pn0, hpn0⟩ := (noBrokenLinks_iff nodes).mp hnb m hmn p hp
      exact ⟨pn0, lookup_append_some hpn0⟩
    · have hmeq := List.mem_singleton.mp hmnew
      subst hmeq
      have hp2 : p ∈ opts.reducesTo.map stripMdTrim := hp
      rcases hlinks with hempty | hvrl
      · rw [hempty] at hp2
        simp at hp2
      · obtain ⟨n0, hn0, -, -⟩ := (vrl_ok_iff _ _ _ _).mp hvrl p hp2
        exact ⟨n0, lookup_append_some hn0⟩

theorem updateCmd_preserves {nodes : Store} {masterTags : List String}
    {slug : String} {opts : UpdateOpts} {res : Store × LatticeNode}
    (hinv : rankInvariant nodes = true) (hnb : noBrokenLinks nodes = true)
    (hok : updateCmd nodes masterTags slug opts = .ok res) :
    rankInvariant res.1 = true ∧ noBrokenLinks res.1 = true := by
  obtain ⟨node, hlook, hstore, hslug, hlevel, hcreated, hmem, -⟩ :=
    updateCmd_ok_inversion hok
  have hnslug : node.slug = slug := (lookup_mem_slug hlook).2
  have hr2slug : res.2.slug = slug := by rw [hslug, hnslug]
  have hpres : ∀ k, lookupNode
      (nodes.map (fun n => if n.slug == slug then res.2 else n)) k
      = (lookupNode nodes k).map
          (fun n => if n.slug == slug then res.2 else n) := by
    intro k
    apply find?_map_pres
    intro a
    by_cases hs : (a.slug == slug) = true
    · rw [if_pos hs]
      have h1 : res.2.slug = a.slug := by
        rw [hr2slug]
        exact (eq_of_beq hs).symm
      rw [h1]
    · rw [if_neg hs]
  have hlevelpres : ∀ k pn, lookupNode nodes k = some pn →
      ((if pn.slug == slug then res.2 else pn) : LatticeNode).level
        = pn.level := by
    intro k pn hpn
    by_cases hs : (pn.slug == slug) = true
    · rw [if_pos hs]
      have hk : k = slug := by
        rw [← (lookup_mem_slug hpn).2]
        exact eq_of_beq hs
      rw [hk] at hpn
      rw [hlook] at hpn
      injection hpn with hpn
      rw [hlevel, hpn]
    · rw [if_neg hs]
  constructor
  · apply (rankInvariant_iff _).mpr
    rw [hstore]
    intro m' hm' p hp pn' hlk'
    obtain ⟨m, hmn, hfm⟩ := List.mem_map.mp hm'
    rw [hpres] at hlk'
    cases hlp : lookupNode nodes p with
    | none =>
      rw [hlp] at hlk'
      simp at hlk'
    | some pn =>
      rw [hlp] at hlk'
      have hlk2 : some ((fun n => if n.slug == slug then res.2 else n) pn)
          = some pn' := hlk'
      injection hlk2 with hlk2
      have hpn'level : pn'.level = pn.level := by
        rw [← hlk2]
        exact hlevelpres p pn hlp
      subst hfm
      by_cases hs : (m.slug == slug) = true
      · have hfm2 : (if m.slug == slug then res.2 else m) = res.2 :=
          if_pos hs
      
        rw [hfm2] at hp ⊢
        rw [hpn'level, hlevel]
        rcases hmem p hp with hold | ⟨-, hpin, hvrl⟩
        · exact (rankInvariant_iff nodes).mp hinv node
            (lookup_mem_slug hlook).1 p hold pn hlp
        · obtain ⟨n0, hn0, hrank, -⟩ := (vrl_ok_iff _ _ _ _).mp hvrl p hpin
          rw [hlp] at hn0
          injection hn0 with hn0
          rw [← hn0] at hrank
          exact hrank
      · have hfm2 : (if m.slug == slug then res.2 else m) = m := if_neg hs
        rw [hfm2] at hp ⊢
        rw [hpn'level]
        exact (rankInvariant_iff nodes).mp hinv m hmn p hp pn hlp
  · apply (noBrokenLinks_iff _).mpr
    rw [hstore]
    intro m' hm' p hp
    obtain ⟨m, hmn, hfm⟩ := List.mem_map.mp hm'
    subst hfm
    have hexists : ∃ pn, lookupNode nodes p = some pn := by
      by_cases hs : (m.slug == slug) = true
      · have hfm2 : (if m.slug == slug then res.2 else m) = res.2 :=
          if_pos hs
        rw [hfm2] at hp
        rcases hmem p hp with hold | ⟨-, hpin, hvrl⟩
        · exact (noBrokenLinks_iff nodes).mp hnb node
            (lookup_mem_slug hlook).1 p hold
        · obtain ⟨n0, hn0, -, -⟩ := (vrl_ok_iff _ _ _ _).mp hvrl p hpin
          exact ⟨n0, hn0⟩
      · have hfm2 : (if m.slug == slug then res.2 else m) = m := if_neg hs
        rw [hfm2] at hp
        exact (noBrokenLinks_iff nodes).mp hnb m hmn p hp
    obtain ⟨pn, hpn⟩ := hexists
    refine ⟨(fun n => if n.slug == slug then res.2 else n) pn, ?_⟩
    rw [hpres, hpn]
    rfl

/-- C2 (counterexample): the claim says the stored `reduces_to` relation
always has strictly rank-decreasing resolving edges, with every violating
edge rejected at write time; but deleting a Tentative node that still has
incoming edges and then re-adding its slug at a higher level silently
re-binds the dangling edge upward.  Deleting the principle "r" (allowed:
it is Tentative) leaves the application "d" with a dangling edge to "r";
re-adding "r" as an application (whose own edge to "p" validates fine)
yields a store where "d" points at an equal-rank node — no write was
rejected, yet the invariant is broken. -/
theorem C2_rank_invariant_counterexample :
    ∃ s1 s2, deleteCmd demoStore "r" = .ok s1 ∧
      addCmd s1 [] "r" 30 {
        title := "r", level := Level.application,
        reducesTo := ["p"], tags := [], proposition := "",
        status := Status.tentative } = .ok s2 ∧
      rankInvariant s2 = false := by
  have hnoreach : ¬ ReachVia [demoPercept, demoApp] [] "p" "r" := by
    suffices hgen : ∀ x y, ReachVia [demoPercept, demoApp] [] x y →
        x = "p" → y = "p" by
      intro h
      have := hgen "p" "r" h rfl
      exact absurd this (by decide)
    intro x y h
    induction h with
    | refl c =>
      intro ha
      exact ha
    | step hnotin hlk hmem hrest ih =>
      rename_i x y z n
      intro ha
      subst ha
      have hn : some demoPercept = some n := hlk
      injection hn with hn
      subst hn
      exact absurd hmem (by simp [demoPercept])
  have hvrl : validateReductionLinks "r" Level.application ["p"]
      [demoPercept, demoApp] = .ok () := by
    apply (vrl_ok_iff _ _ _ _).mpr
    intro t ht
    have ht' : t = "p" := by simpa using ht
    subst ht'
    exact ⟨demoPercept, rfl, by decide, hnoreach⟩
  refine ⟨[demoPercept, demoApp],
    [demoPercept, demoApp, {
      slug := "r", title := "r", level := Level.application,
      reduces_to := ["p"], status := Status.tentative, tags := [],
      proposition := "", created := 30 }], by rfl, ?_, by rfl⟩
  have h1 : addCmd [demoPercept, demoApp] [] "r" 30 {
      title := "r", level := Level.application, reducesTo := ["p"],
      tags := [], proposition := "", status := Status.tentative } =
    (match validateReductionLinks "r" Level.application ["p"]
        [demoPercept, demoApp] with
      | .error e => (.error e : Except LErr Store)
      | .ok () => .ok [demoPercept, demoApp, {
          slug := "r", title := "r", level := Level.application,
          reduces_to := ["p"], status := Status.tentative, tags := [],
          proposition := "", created := 30 }]) := rfl
  rw [h1, hvrl]

/-- C2 (amended): what does hold.  (1) The write-time level check accepts
an edge iff the target's rank is strictly lower (so equal-rank edges,
including axiom-percept in either direction, and upward edges are
rejected).  (2) A store whose resolving edges are strictly rank-decreasing
has no `reduces_to` cycle through stored nodes.  (3)–(4) `add` and
`update` preserve the conjunction "all resolving edges strictly decrease
rank, and no edge dangles"; only the delete/re-add sequence of the
counterexample can break it. -/
theorem C2_rank_invariant_amended :
    (∀ a b : Level, validateLevelOrder a b = .ok () ↔
      LEVEL_RANK b < LEVEL_RANK a) ∧
    (∀ (nodes : Store) (s : String), rankInvariant nodes = true →
      ¬ ReachPlus nodes s s) ∧
    (∀ (nodes : Store) (masterTags : List String) (newSlug : String)
        (created : Int) (opts : AddOpts) (nodes' : Store),
      rankInvariant nodes = true → noBrokenLinks nodes = true →
      addCmd nodes masterTags newSlug created opts = .ok nodes' →
      rankInvariant nodes' = true ∧ noBrokenLinks nodes' = true) ∧
    (∀ (nodes : Store) (masterTags : List String) (slug : String)
        (opts : UpdateOpts) (res : Store × LatticeNode),
      rankInvariant nodes = true → noBrokenLinks nodes = true →
      updateCmd nodes masterTags slug opts = .ok res →
      rankInvariant res.1 = true ∧ noBrokenLinks res.1 = true) :=
  ⟨fun a b => validateLevelOrder_ok_iff a b,
    fun _ s hinv => rankInvariant_acyclic hinv s,
    fun _ _ _ _ _ _ hinv hnb hok => addCmd_preserves hinv hnb hok,
    fun _ _ _ _ _ hinv hnb hok => updateCmd_preserves hinv hnb hok⟩

/-- Witness for C2 (amended): promoting the demo application keeps the
rank invariant, and the demo store has no cycle through "p". -/
theorem C2_rank_invariant_amended_witness :
    rankInvariant [demoPercept, demoPrinciple, demoAppValidated] = true ∧
    ¬ ReachPlus demoStore "p" "p" :=
  ⟨(C2_rank_invariant_amended.2.2.2 demoStore [] "d"
      { status := some Status.validated }
      ([demoPercept, demoPrinciple, demoAppValidated], demoAppValidated)
      (by decide) (by decide) (by rfl)).1,
    C2_rank_invariant_amended.2.1 demoStore "p" (by decide)⟩

theorem map_congr_mem {α β : Type} {l : List α} {f g : α → β}
    (h : ∀ a ∈ l, f a = g a) : l.map f = l.map g := by
  induction l with
  | nil => rfl
  | cons a t ih =>
    rw [List.map_cons, List.map_cons, h a (List.mem_cons_self _ _),
      ih (fun b hb => h b (List.mem_cons_of_mem _ hb))]

theorem lookup_append_right {l1 l2 : Store} {k : String}
    (h : ∀ x ∈ l1, x.slug ≠ k) :
    lookupNode (l1 ++ l2) k = lookupNode l2 k := by
  induction l1 with
  | nil => rfl
  | cons a t ih =>
    have hb : (a.slug == k) = false := by
      simpa using h a (List.mem_cons_self _ _)
    show ((a :: t) ++ l2).find? (fun n => n.slug == k) = _
    rw [List.cons_append, List.find?_cons_of_neg _ (by simp [hb])]
    exact ih (fun x hx => h x (List.mem_cons_of_mem _ hx))

theorem lookup_map_pres_slug {ms : List LatticeNode}
    {g : LatticeNode → LatticeNode} (hpres : ∀ m, (g m).slug = m.slug)
    (hnd : (ms.map (fun m => m.slug)).Nodup) :
    ∀ m ∈ ms, lookupNode (ms.map g) m.slug = some (g m) := by
  intro m hm
  have hnd2 : ((ms.map g).map (fun n => n.slug)).Nodup := by
    rw [List.map_map]
    have he : ((fun (n : LatticeNode) => n.slug) ∘ g) =
        (fun (m : LatticeNode) => m.slug) := funext (fun m => hpres m)
    rw [he]
    exact hnd
  have h3 := lookup_of_mem hnd2 (List.mem_map_of_mem g hm)
  rw [hpres] at h3
  exact h3

theorem resolveOldNodes_spec {nodes : Store} :
    ∀ {slugs : List String} {members : List LatticeNode},
    resolveOldNodes nodes slugs = .ok members →
    members.map (fun m => m.slug) = slugs ∧ ∀ m ∈ members, m ∈ nodes := by
  intro slugs
  induction slugs with
  | nil =>
    intro members h
    rw [resolveOldNodes] at h
    injection h with h
    subst h
    exact ⟨rfl, fun m hm => absurd hm (List.not_mem_nil m)⟩
  | cons s rest ih =>
    intro members h
    rw [resolveOldNodes] at h
    split at h
    · cases h
    · rename_i n hn
      split at h
      · cases h
      · rename_i ns hns
        injection h with h
        subst h
        obtain ⟨hmap, hmem⟩ := ih hns
        constructor
        · rw [List.map_cons, hmap, (lookup_mem_slug hn).2]
        · intro m hm
          rcases List.mem_cons.mp hm with rfl | hm2
          · exact (lookup_mem_slug hn).1
          · exact hmem m hm2

theorem restoreEntries_map {trash : List LatticeNode} {canonicalSlug : String} :
    ∀ (ms : List LatticeNode),
    (∀ m ∈ ms, lookupNode trash m.slug = some { m with
      merged_into := some canonicalSlug, deduplication_group := none }) →
    restoreEntries trash (ms.map (fun m =>
      { id := m.slug, original_status := m.status })) =
      .ok (ms.map (fun m => { m with
        merged_into := none, deduplication_group := none })) := by
  intro ms
  induction ms with
  | nil => intro _; rfl
  | cons a t ih =>
    intro hlk
    rw [List.map_cons]
    have hstep : restoreEntries trash
        (({ id := a.slug, original_status := a.status } : MergedFromEntry) ::
          t.map (fun m => { id := m.slug, original_status := m.status })) =
      (match lookupNode trash a.slug with
        | none => .error (.restoreFailed a.slug)
        | some tn =>
          match restoreEntries trash (t.map (fun m =>
              { id := m.slug, original_status := m.status })) with
          | .error e => .error e
          | .ok ns =>
            .ok ({ tn with
              status := a.status, merged_into := none,
              deduplication_group := none } :: ns)) := rfl
    rw [hstep, hlk a (List.mem_cons_self a t),
      ih (fun m hm => hlk m (List.mem_cons_of_mem _ hm))]
    rfl

theorem undoFold_oldest (restored : Store) :
    ∀ (ms : List LatticeNode) (b : LatticeNode),
    (∀ m ∈ ms, lookupNode restored m.slug = some { m with
      merged_into := none, deduplication_group := none }) →
    lookupNode restored b.slug = some { b with
      merged_into := none, deduplication_group := none } →
    ∃ oldest, (oldest ∈ ms ∨ oldest = b) ∧
      (ms.map (fun m =>
        ({ id := m.slug, original_status := m.status } : MergedFromEntry))).foldl
          (undoFoldStep restored) b.slug = oldest.slug ∧
      oldest.created ≤ b.created ∧ ∀ m ∈ ms, oldest.created ≤ m.created := by
  intro ms
  induction ms with
  | nil =>
    intro b _ hb
    exact ⟨b, Or.inr rfl, rfl, le_refl _,
      fun m hm => absurd hm (List.not_mem_nil m)⟩
  | cons a t ih =>
    intro b hlk hlkb
    rw [List.map_cons, List.foldl_cons]
    have hstep : undoFoldStep restored b.slug
        { id := a.slug, original_status := a.status } =
        if a.created < b.created then a.slug else b.slug := by
      simp only [undoFoldStep, hlk a (List.mem_cons_self a t), hlkb]
    rw [hstep]
    by_cases hlt : a.created < b.created
    · rw [if_pos hlt]
      obtain ⟨oldest, hmem, hfold, hle, hall⟩ :=
        ih a (fun m hm => hlk m (List.mem_cons_of_mem _ hm))
          (hlk a (List.mem_cons_self a t))
      refine ⟨oldest, ?_, hfold, ?_, ?_⟩
      · rcases hmem with h | h
        · exact Or.inl (List.mem_cons_of_mem _ h)
        · exact Or.inl (h ▸ List.mem_cons_self a t)
      · exact le_trans hle (le_of_lt hlt)
      · intro m hm
        rcases List.mem_cons.mp hm with rfl | hm2
        · exact hle
        · exact hall m hm2
    · rw [if_neg hlt]
      obtain ⟨oldest, hmem, hfold, hle, hall⟩ :=
        ih b (fun m hm => hlk m (List.mem_cons_of_mem _ hm)) hlkb
      refine ⟨oldest, ?_, hfold, hle, ?_⟩
      · rcases hmem with h | h
        · exact Or.inl (List.mem_cons_of_mem _ h)
        · exact Or.inr h
      · intro m hm
        rcases List.mem_cons.mp hm with rfl | hm2
        · exact le_trans hle (Int.not_lt.mp hlt)
      
        · exact hall m hm2

theorem mergeCmd_ok_inversion {nodes : Store} {oldSlugs : List String}
    {canonicalSlug title prop : String} {level : Level} {created : Int}
    {active : Store} {trash : List LatticeNode}
    {first : LatticeNode} {restOld : List LatticeNode}
    (hres : resolveOldNodes nodes oldSlugs = .ok (first :: restOld))
    (hm : mergeCmd nodes oldSlugs canonicalSlug title prop level created =
      .ok (active, trash)) :
    ((nodes.map (fun n => n.slug)).contains canonicalSlug) = false ∧
    active = ((nodes.filter (fun n => !(oldSlugs.contains n.slug))).map
      (rewriteRefs oldSlugs canonicalSlug)) ++ [{
        slug := canonicalSlug, title := title, level := level,
        reduces_to := first.reduces_to, status := .tentative, tags := [],
        proposition := prop, created := created,
        merged_from := (first :: restOld).map (fun m =>
          { id := m.slug, original_status := m.status }) }] ∧
    trash = (first :: restOld).map (fun m => { m with
      merged_into := some canonicalSlug, deduplication_group := none }) := by
  simp only [mergeCmd, hres] at hm
  split at hm
  · cases hm
  · rename_i hchk
    split at hm
    · cases hm
    · rename_i hdup
      injection hm with hm
      refine ⟨by simpa using hdup, ?_, ?_⟩
      · exact (congrArg Prod.fst hm).symm
      · exact (congrArg Prod.snd hm).symm

/-- C5: merge followed by an immediate undo restores the graph's edge
structure: every restored member keeps its own original edges and status
(only the merge stamps are cleared), and every surviving node's
references to former members are redirected — via the canonical slug —
to the restored member that is oldest by `created`, while all its other
edges are untouched.  Hypotheses: the requested member slugs are
distinct, and nothing in the store referenced the fresh canonical slug
before the merge. -/
theorem C5_merge_undo_restores_edges
    (nodes active final : Store) (trash members : List LatticeNode)
    (oldSlugs : List String) (canonicalSlug title prop : String)
    (level : Level) (created : Int)
    (hres : resolveOldNodes nodes oldSlugs = .ok members)
    (hm : mergeCmd nodes oldSlugs canonicalSlug title prop level created
      = .ok (active, trash))
    (hu : undoCmd active trash canonicalSlug = .ok final)
    (hndOld : oldSlugs.Nodup)
    (hrefs : ∀ n ∈ nodes, canonicalSlug ∉ n.reduces_to) :
    ∃ oldest ∈ members, (∀ m ∈ members, oldest.created ≤ m.created) ∧
      final = members.map (fun m => { m with
          merged_into := none, deduplication_group := none })
        ++ (nodes.filter (fun n => !(oldSlugs.contains n.slug))).map
            (fun n => { n with reduces_to := n.reduces_to.map (fun r =>
                if oldSlugs.contains r then oldest.slug else r) }) := by
  obtain ⟨hmslugs, hmemnodes⟩ := resolveOldNodes_spec hres
  cases members with
  | nil =>
    simp only [mergeCmd, hres] at hm
    cases hm
  | cons first restOld =>
    obtain ⟨hfresh, hactive, htrash⟩ := mergeCmd_ok_inversion hres hm
    have hndMem : ((first :: restOld).map (fun m => m.slug)).Nodup := by
      rw [hmslugs]
      exact hndOld
    have hlkTrash : ∀ m ∈ first :: restOld, lookupNode trash m.slug =
        some { m with
          merged_into := some canonicalSlug,
          deduplication_group := none } := by
      rw [htrash]
      exact lookup_map_pres_slug (fun m => rfl) hndMem
    have hnotmem : canonicalSlug ∉ nodes.map (fun n => n.slug) := by
      simpa using hfresh
    have hside : ∀ x ∈ (nodes.filter
        (fun n => !(oldSlugs.contains n.slug))).map
        (rewriteRefs oldSlugs canonicalSlug), x.slug ≠ canonicalSlug := by
      intro x hx
      obtain ⟨n, hnf, hfx⟩ := List.mem_map.mp hx
      have hnn : n ∈ nodes := (List.mem_filter.mp hnf).1
      intro hxe
      apply hnotmem
      rw [← hxe, ← hfx]
      exact List.mem_map_of_mem (fun n => n.slug) hnn
    have hcanon_lookup : lookupNode active canonicalSlug = some {
        slug := canonicalSlug, title := title, level := level,
        reduces_to := first.reduces_to, status := .tentative, tags := [],
        proposition := prop, created := created,
        merged_from := (first :: restOld).map (fun m =>
          { id := m.slug, original_status := m.status }) } := by
      rw [hactive, lookup_append_right hside]
      simp [lookupNode]
    have hrestored := @restoreEntries_map trash canonicalSlug
      (first :: restOld) hlkTrash
    simp only [List.map_cons] at hrestored
    simp only [undoCmd, hcanon_lookup, List.map_cons] at hu
    simp only [hrestored] at hu
    have hlkR : ∀ m ∈ first :: restOld,
        lookupNode ((first :: restOld).map (fun m => { m with
          merged_into := none, deduplication_group := none })) m.slug =
        some { m with merged_into := none, deduplication_group := none } :=
      lookup_map_pres_slug (fun m => rfl) hndMem
    obtain ⟨oldest, hmemO, hfold, hleFirst, hallM⟩ :=
      undoFold_oldest ((first :: restOld).map (fun m => { m with
        merged_into := none, deduplication_group := none }))
        (first :: restOld) first hlkR (hlkR first (List.mem_cons_self _ _))
    simp only [List.map_cons] at hfold
    rw [hfold] at hu
    injection hu with hu
    have hfilter : active.filter (fun n => !(n.slug == canonicalSlug)) =
        (nodes.filter (fun n => !(oldSlugs.contains n.slug))).map
          (rewriteRefs oldSlugs canonicalSlug) := by
      rw [hactive, List.filter_append]
      have h1 : ((nodes.filter (fun n => !(oldSlugs.contains n.slug))).map
          (rewriteRefs oldSlugs canonicalSlug)).filter
            (fun n => !(n.slug == canonicalSlug)) =
          (nodes.filter (fun n => !(oldSlugs.contains n.slug))).map
            (rewriteRefs oldSlugs canonicalSlug) :=
        List.filter_eq_self.mpr (fun x hx => by simp [hside x hx])
      have h2 : ∀ (c : LatticeNode), c.slug = canonicalSlug →
          (([c] : Store).filter (fun n => !(n.slug == canonicalSlug))) = [] := by
        intro c hc
        simp [hc]
      rw [h1, h2 {
        slug := canonicalSlug, title := title, level := level,
        reduces_to := first.reduces_to, status := .tentative, tags := [],
        proposition := prop, created := created,
        merged_from := (first :: restOld).map (fun m =>
          { id := m.slug, original_status := m.status }) } rfl,
        List.append_nil]
    rw [hfilter, List.map_map] at hu
    have hmapeq : (nodes.filter (fun n => !(oldSlugs.contains n.slug))).map
        ((fun n => { n with reduces_to := n.reduces_to.map (fun r =>
            if r == canonicalSlug then oldest.slug else r) }) ∘
          (rewriteRefs oldSlugs canonicalSlug)) =
        (nodes.filter (fun n => !(oldSlugs.contains n.slug))).map
          (fun n => { n with reduces_to := n.reduces_to.map (fun r =>
            if oldSlugs.contains r then oldest.slug else r) }) := by
      apply map_congr_mem
      intro n hnf
      have hnn : n ∈ nodes := (List.mem_filter.mp hnf).1
      have hlist : ((n.reduces_to.map (fun r =>
          if oldSlugs.contains r then canonicalSlug else r)).map (fun r =>
            if r == canonicalSlug then oldest.slug else r)) =
          n.reduces_to.map (fun r =>
            if oldSlugs.contains r then oldest.slug else r) := by
        rw [List.map_map]
        apply map_congr_mem
        intro r hr
        simp only [Function.comp_apply]
        by_cases hc : oldSlugs.contains r = true
        · rw [if_pos hc, if_pos hc]
          simp
        · have hc' : oldSlugs.contains r = false := by simpa using hc
          have hne : (r == canonicalSlug) = false := by
            have : r ≠ canonicalSlug := fun h => (hrefs n hnn) (h ▸ hr)
            simpa using this
          rw [if_neg hc, if_neg hc, hne]
          simp
      exact congrArg (fun l => { n with reduces_to := l }) hlist
    rw [hmapeq] at hu
    refine ⟨oldest, ?_, hallM, hu.symm⟩
    rcases hmemO with h | h
    · exact h
    · exact h ▸ List.mem_cons_self _ _

/-- Witness for C5 at the demo store: merging the two principles "r"
(created 10) and "r2" (created 5) into "c" and undoing rewires the
application's edge to the older member "r2", restoring everything else. -/
theorem C5_merge_undo_restores_edges_witness :
    ∃ oldest ∈ [demoPrinciple, demoPrinciple2],
      (∀ m ∈ [demoPrinciple, demoPrinciple2], oldest.created ≤ m.created) ∧
      ([demoPrinciple, demoPrinciple2, demoPercept,
        { demoApp with reduces_to := ["r2"] }] : Store) =
        [demoPrinciple, demoPrinciple2].map (fun m => { m with
            merged_into := none, deduplication_group := none })
          ++ (demoMergeStore.filter
              (fun n => !(["r", "r2"].contains n.slug))).map
              (fun n => { n with reduces_to := n.reduces_to.map (fun r =>
                  if ["r", "r2"].contains r then oldest.slug else r) }) :=
  C5_merge_undo_restores_edges demoMergeStore
    [demoPercept, { demoApp with reduces_to := ["c"] }, {
      slug := "c", title := "t", level := Level.principle,
      reduces_to := ["p"], status := Status.tentative, tags := [],
      proposition := "pp", created := 100,
      merged_from := [{ id := "r", original_status := Status.tentative },
        { id := "r2", original_status := Status.tentative }] }]
    [demoPrinciple, demoPrinciple2, demoPercept,
      { demoApp with reduces_to := ["r2"] }]
    [{ demoPrinciple with merged_into := some "c" },
      { demoPrinciple2 with merged_into := some "c" }]
    [demoPrinciple, demoPrinciple2]
    ["r", "r2"] "c" "t" "pp" Level.principle 100
    (by rfl) (by rfl) (by rfl) (by decide) (by decide)

end Lattice
